import Mathlib

/-!
Shallow embedding of `src/src/minesweeper.c` (a terminal minesweeper engine):
the data model, board generation (`msw_generate_grid`, `msw_initial_grid`),
session construction (`smb_mine_init`, `smb_mine_create`) and the reveal
engine (`msw_dig`, `msw_flag`), together with proofs of the specification's
properties.

Conventions of the embedding:
* C `char` cell codes are modelled as `Nat` values.
* C arrays (`char *grid`, `char *visible`) are `List Nat`; `lget l i` is the
  array read `l[i]`.
* The C `rand()` stream is an explicit function `Nat → Nat` (argument: how
  many values were drawn so far); `srand(time(NULL))` at the start of each
  `msw_generate_grid` call is modelled by giving each generation attempt its
  own stream.
* Unbounded C loops (the mine rejection sampler, the regeneration loop, the
  recursive flood fill) take explicit fuel and return `Option`; `none` means
  the fuel ran out before the loop finished.
* The one place where the C code can index an array out of range
  (`msw_flag`, which has no bounds check) returns `none` on an out-of-range
  access, making the undefined behaviour explicit.
-/

/-- Modelled from the spec: the cell code for a clear (count zero) cell from
the missing header `minesweeper.h`.  The count pass stores a count of `n` as
`MSW_CLEAR + n` (the C code increments the cell code directly), and the spec
displays counts as digits, so `MSW_CLEAR` is the glyph `'0'`. -/
def MSW_CLEAR : Nat := 48

/-- Modelled from the spec: the cell code for a mine from the missing header
`minesweeper.h`; a distinguishable glyph (`'*'`), in particular outside the
count range `[MSW_CLEAR, MSW_CLEAR + 8]`. -/
def MSW_MINE : Nat := 42

/-- Modelled from the spec: the visible-grid code for an untouched cell from
the missing header `minesweeper.h` (glyph `'#'`), distinct from all true-grid
codes. -/
def MSW_UNKNOWN : Nat := 35

/-- Modelled from the spec: the visible-grid code for a flagged cell from the
missing header `minesweeper.h` (glyph `'F'`), distinct from all true-grid
codes. -/
def MSW_FLAG : Nat := 70

/-- Array read `l[i]` for a modelled C `char` array (reads out of range give
the junk value `0`, which is none of the cell codes; every read performed by
the embedded code is in range except in `msw_flag`, where the access is
guarded explicitly). -/
def lget (l : List Nat) (i : Nat) : Nat := l.getD i 0

/-- The eight neighbor offsets, `zip rnbr cnbr` from the C source. -/
def neighborOffsets : List (Int × Int) :=
  [(-1, -1), (-1, 0), (-1, 1), (0, -1), (0, 1), (1, -1), (1, 0), (1, 1)]

/-- `msw_in_bounds`: whether a cell is in bounds.  The C function takes the
game struct and reads `game->rows` and `game->columns`; we pass the two
dimensions directly. -/
def msw_in_bounds (rows columns row column : Int) : Prop :=
  0 ≤ row ∧ row < rows ∧ 0 ≤ column ∧ column < columns

instance msw_in_bounds_decidable (rows columns row column : Int) :
    Decidable (msw_in_bounds rows columns row column) := by
  unfold msw_in_bounds; infer_instance

/-- `msw_index`: the row-major index of a cell.  The C function takes the
game struct and reads `game->columns`; we pass the column count directly. -/
def msw_index (columns row column : Int) : Int :=
  row * columns + column

/-- The flat `Nat` index of a coordinate pair (the C `int` index is
nonnegative whenever the cell is in bounds). -/
def idxN (columns : Int) (p : Int × Int) : Nat :=
  (msw_index columns p.1 p.2).toNat

/-- The game struct `smb_mine`: dimensions, requested mine count, the true
grid (`NULL` until the first dig, hence an `Option`), and the visible grid. -/
structure smb_mine where
  rows : Int
  columns : Int
  mines : Int
  grid : Option (List Nat)
  visible : List Nat
deriving DecidableEq, Repr

/-- One iteration step structure of the mine rejection sampler in
`msw_generate_grid`: `while (mines > 0) { i = rand() % ncells; if
(grid[i] == MSW_CLEAR) { grid[i] = MSW_MINE; mines--; } }`.  `t` counts the
values drawn from `rng` so far; `fuel` bounds the number of iterations. -/
def msw_place_mines (ncells : Nat) (rng : Nat → Nat) :
    Nat → Nat → Int → List Nat → Option (List Nat)
  | 0, _, mines, grid => if mines ≤ 0 then some grid else none
  | fuel + 1, t, mines, grid =>
    if mines ≤ 0 then some grid
    else
      let i := rng t % ncells
      if lget grid i = MSW_CLEAR then
        msw_place_mines ncells rng fuel (t + 1) (mines - 1) (grid.set i MSW_MINE)
      else
        msw_place_mines ncells rng fuel (t + 1) mines grid

/-- One iteration of the inner neighbor loop of the count pass: if the cell
at offset `d` from the mine at `(r, c)` is in bounds and not itself a mine,
increment it. -/
def bumpStep (rows columns r c : Int) (g : List Nat) (d : Int × Int) : List Nat :=
  if msw_in_bounds rows columns (r + d.1) (c + d.2) ∧
      lget g (idxN columns (r + d.1, c + d.2)) ≠ MSW_MINE then
    g.set (idxN columns (r + d.1, c + d.2)) (lget g (idxN columns (r + d.1, c + d.2)) + 1)
  else g

/-- The inner neighbor loop of the count pass in `msw_generate_grid`: for a
mine at `(r, c)`, increment every in-bounds neighbor that is not itself a
mine. -/
def msw_bump_neighbors (rows columns : Int) (r c : Int) (grid : List Nat) : List Nat :=
  neighborOffsets.foldl (bumpStep rows columns r c) grid

/-- All cells of the board in row-major order, the iteration order of the
nested `for` loops of the count pass. -/
def cellList (rows columns : Int) : List (Int × Int) :=
  (List.range rows.toNat).flatMap
    (fun (r : Nat) => (List.range columns.toNat).map (fun (c : Nat) => ((r : Int), (c : Int))))

/-- The count pass of `msw_generate_grid`: for each cell in row-major order,
if it is (currently) a mine, bump its non-mine in-bounds neighbors. -/
def msw_count_pass (rows columns : Int) (grid : List Nat) : List Nat :=
  (cellList rows columns).foldl
    (fun g p =>
      if lget g (idxN columns p) = MSW_MINE then
        msw_bump_neighbors rows columns p.1 p.2 g
      else g)
    grid

/-- `msw_generate_grid`: initialize all cells to `MSW_CLEAR`, place the mines
by rejection sampling, then run the count pass.  The C function reads
`obj->rows`, `obj->columns`, `obj->mines`; we pass them directly.  `rng`
abstracts the freshly seeded `rand()` stream of this call. -/
def msw_generate_grid (rows columns mines : Int) (rng : Nat → Nat)
    (pfuel : Nat) : Option (List Nat) :=
  match msw_place_mines (rows * columns).toNat rng pfuel 0 mines
      (List.replicate (rows * columns).toNat MSW_CLEAR) with
  | none => none
  | some g => some (msw_count_pass rows columns g)

/-- `msw_initial_grid`: keep regenerating grids until the first-dig cell
`(r, c)` is clear (a `do { ... } while` loop, so the body runs at least
once).  `rngs` gives each generation attempt its own `rand()` stream (the C
code reseeds with `srand(time(NULL))` on every attempt); `gfuel` bounds the
number of attempts. -/
def msw_initial_grid (rows columns mines : Int) (rngs : Nat → Nat → Nat)
    (pfuel : Nat) : Nat → Int → Int → Option (List Nat)
  | 0, _, _ => none
  | gfuel + 1, r, c =>
    match msw_generate_grid rows columns mines (rngs gfuel) pfuel with
    | none => none
    | some g =>
      if lget g (idxN columns (r, c)) = MSW_CLEAR then some g
      else msw_initial_grid rows columns mines rngs pfuel gfuel r c

/-- `smb_mine_init`: store the configuration, leave the true grid `NULL` and
fill the visible grid with `MSW_UNKNOWN`.  The C function performs no
validation of `rows`, `columns` or `mines`. -/
def smb_mine_init (rows columns mines : Int) : smb_mine :=
  { rows := rows
    columns := columns
    mines := mines
    grid := none
    visible := List.replicate (rows * columns).toNat MSW_UNKNOWN }

/-- `smb_mine_create`: allocate and initialize a game. -/
def smb_mine_create (rows columns mines : Int) : smb_mine :=
  smb_mine_init rows columns mines

/-- The type of the lazy generator passed to `msw_dig`: given the first-dig
cell, produce the true grid (or `none` if its fuel runs out).
`msw_dig_run` instantiates it with `msw_initial_grid`. -/
abbrev GenFun := Int → Int → Option (List Nat)

/-- The grid `msw_dig` works with after its lazy-generation check: the
existing grid if the game has started, otherwise the freshly generated
one. -/
def resolveGrid (gen : GenFun) (g : Option (List Nat)) (row column : Int) :
    Option (List Nat) :=
  match g with
  | none => gen row column
  | some grid => some grid

/-- The neighbor loop inside the flood-fill branch of `msw_dig`: dig at each
offset in turn, threading the game state and discarding the returned status.
The dig of one cell (`msw_dig` at the next smaller recursion depth) is
passed in as `digF`. -/
def digStep (digF : smb_mine → Int → Int → Option (smb_mine × Int)) :
    List (Int × Int) → smb_mine → Int → Int → Option smb_mine
  | [], game, _, _ => some game
  | d :: rest, game, row, column =>
    match digF game (row + d.1) (column + d.2) with
    | none => none
    | some (g, _) => digStep digF rest g row column

/-- `msw_dig`: dig at a cell.  Returns `0` out of bounds, `-1` (loss) on a
mine, `1` otherwise; on a clear true cell that is not yet visibly clear it
reveals the cell and recursively digs all eight neighbors (their return
values are discarded, as in the C source).  `dfuel` bounds the recursion
depth; `gen` is the lazy generator used when `game.grid` is still `NULL`. -/
def msw_dig (gen : GenFun) : Nat → smb_mine → Int → Int → Option (smb_mine × Int)
  | 0, _, _, _ => none
  | dfuel + 1, game, row, column =>
    if msw_in_bounds game.rows game.columns row column then
      match resolveGrid gen game.grid row column with
      | none => none
      | some grid =>
        let game1 : smb_mine := { game with grid := some grid }
        let index : Nat := idxN game.columns (row, column)
        if lget grid index = MSW_CLEAR ∧ lget game1.visible index ≠ MSW_CLEAR then
          match digStep (msw_dig gen dfuel) neighborOffsets
              { game1 with visible := game1.visible.set index MSW_CLEAR } row column with
          | none => none
          | some game3 => some (game3, 1)
        else if lget grid index = MSW_MINE then
          some ({ game1 with visible := game1.visible.set index MSW_MINE }, -1)
        else if lget game1.visible index = MSW_FLAG then
          some (game1, 1)
        else
          some ({ game1 with visible := game1.visible.set index (lget grid index) }, 1)
    else
      some (game, 0)

/-- `msw_dig` with the lazy generator instantiated by `msw_initial_grid` on
the game's own configuration, as in the C source. -/
def msw_dig_run (rngs : Nat → Nat → Nat) (pfuel gfuel dfuel : Nat)
    (game : smb_mine) (row column : Int) : Option (smb_mine × Int) :=
  msw_dig (msw_initial_grid game.rows game.columns game.mines rngs pfuel gfuel)
    dfuel game row column

/-- `msw_flag`: stick a flag in a cell.  The C source computes the flat index
and reads `game->visible[index]` with no bounds check whatsoever; the guard
below makes the access explicit and returns `none` exactly when the C code
would read outside the `visible` array. -/
def msw_flag (game : smb_mine) (r c : Int) : Option (smb_mine × Int) :=
  let index := msw_index game.columns r c
  if 0 ≤ index ∧ index.toNat < game.visible.length then
    if lget game.visible index.toNat = MSW_UNKNOWN then
      some ({ game with visible := game.visible.set index.toNat MSW_FLAG }, 1)
    else
      some (game, 1)
  else
    none

/-! ## Basic list and unfolding lemmas -/

/-- The number of mine cells of a grid. -/
def countMines (l : List Nat) : Nat :=
  ((Finset.range l.length).filter (fun i => lget l i = MSW_MINE)).card

/-- Every cell is a mine or has a value of at least `MSW_CLEAR` (counts are
`MSW_CLEAR + n`); this is maintained throughout generation and implies that
an increment can never turn a cell into a mine. -/
def gridValuesOK (w : List Nat) : Prop :=
  ∀ i, i < w.length → lget w i = MSW_MINE ∨ MSW_CLEAR ≤ lget w i

/-- The count-pass invariant relative to the freshly placed grid `w0`:
length preserved, non-mine values at least `MSW_CLEAR`, and the set of mine
cells unchanged. -/
def passInv (w0 w : List Nat) : Prop :=
  w.length = w0.length ∧ gridValuesOK w ∧
    ∀ i, i < w0.length → (lget w i = MSW_MINE ↔ lget w0 i = MSW_MINE)

/-- The spec's brute-force recount of a cell's in-bounds mine neighbors
(stated from the spec's words, to be compared with the counts the generated
grid actually stores). -/
def recountMineNeighbors (rows columns : Int) (g : List Nat) (p : Int × Int) : Nat :=
  neighborOffsets.countP (fun d =>
    decide (msw_in_bounds rows columns (p.1 + d.1) (p.2 + d.2)) &&
    decide (lget g (idxN columns (p.1 + d.1, p.2 + d.2)) = MSW_MINE))

/-- Consistency of the visible grid with the true grid: every revealed cell
(neither `Unknown` nor `Flagged`) shows exactly its true value.  This holds
at session start (everything `Unknown`) and is preserved by every dig and
flag. -/
def visConsistent (g v : List Nat) : Prop :=
  ∀ i, i < v.length → lget v i ≠ MSW_UNKNOWN → lget v i ≠ MSW_FLAG →
    lget v i = lget g i

instance visConsistent_decidable (g v : List Nat) : Decidable (visConsistent g v) := by
  unfold visConsistent
  infer_instance

/-- A well-formed true grid: every cell is a mine or a count between 0 and 8
(encoded `MSW_CLEAR + n`), exactly what generation produces. -/
def gridCellsOK (g : List Nat) : Prop :=
  ∀ i, i < g.length → lget g i = MSW_MINE ∨
    (MSW_CLEAR ≤ lget g i ∧ lget g i ≤ MSW_CLEAR + 8)

instance gridCellsOK_decidable (g : List Nat) : Decidable (gridCellsOK g) := by
  unfold gridCellsOK
  infer_instance

/-- True-grid counts are consistent with its mines: every non-mine cell
stores exactly the recount of its in-bounds mine neighbors. -/
def countsOK (rows columns : Int) (g : List Nat) : Prop :=
  ∀ p : Int × Int, msw_in_bounds rows columns p.1 p.2 →
    lget g (idxN columns p) ≠ MSW_MINE →
    lget g (idxN columns p) = MSW_CLEAR + recountMineNeighbors rows columns g p

/-- No mine is adjacent to any in-bounds clear (count zero) cell; this is
what makes the flood fill safe, and it follows from `countsOK`. -/
def noMineNearClear (rows columns : Int) (g : List Nat) : Prop :=
  ∀ p : Int × Int, msw_in_bounds rows columns p.1 p.2 →
    lget g (idxN columns p) = MSW_CLEAR →
    ∀ d ∈ neighborOffsets, msw_in_bounds rows columns (p.1 + d.1) (p.2 + d.2) →
      lget g (idxN columns (p.1 + d.1, p.2 + d.2)) ≠ MSW_MINE

/-- Pointwise stability of a dig: visibly clear cells stay clear, correctly
revealed non-clear cells keep their value, flags on count cells survive, and
no flag is ever created. -/
def digPointwise (g v vout : List Nat) : Prop :=
  ∀ i, i < v.length →
    (lget v i = MSW_CLEAR → lget vout i = MSW_CLEAR) ∧
    (lget g i ≠ MSW_CLEAR → lget v i = lget g i → lget vout i = lget g i) ∧
    (lget g i ≠ MSW_CLEAR → lget g i ≠ MSW_MINE → lget v i = MSW_FLAG →
      lget vout i = MSW_FLAG) ∧
    (lget vout i = MSW_FLAG → lget v i = MSW_FLAG)

/-- Everything a dig preserves about a running game with true grid `g`. -/
structure DigPres (g : List Nat) (game gout : smb_mine) : Prop where
  rows_eq : gout.rows = game.rows
  columns_eq : gout.columns = game.columns
  mines_eq : gout.mines = game.mines
  grid_eq : gout.grid = some g
  len_eq : gout.visible.length = game.visible.length
  vcons : visConsistent g gout.visible
  pt : digPointwise g game.visible gout.visible

/-- Reachability through the clear region of the true grid: `GridReach p q`
means `q` lies in the maximal 8-connected component of in-bounds clear cells
containing `p`. -/
inductive GridReach (rows columns : Int) (g : List Nat) :
    Int × Int → Int × Int → Prop where
  | refl (p : Int × Int) (hb : msw_in_bounds rows columns p.1 p.2)
      (hc : lget g (idxN columns p) = MSW_CLEAR) : GridReach rows columns g p p
  | step (p q r : Int × Int) (h : GridReach rows columns g p q)
      (hb : msw_in_bounds rows columns r.1 r.2)
      (hc : lget g (idxN columns r) = MSW_CLEAR)
      (hadj : (r.1 - q.1, r.2 - q.2) ∈ neighborOffsets) :
      GridReach rows columns g p r

/-- Reachability through clear cells that are not yet visibly clear: the
cells the current dig will freshly clear. -/
inductive DigReach (rows columns : Int) (g v : List Nat) :
    Int × Int → Int × Int → Prop where
  | refl (p : Int × Int) (hb : msw_in_bounds rows columns p.1 p.2)
      (hc : lget g (idxN columns p) = MSW_CLEAR)
      (hv : lget v (idxN columns p) ≠ MSW_CLEAR) : DigReach rows columns g v p p
  | step (p q r : Int × Int) (h : DigReach rows columns g v p q)
      (hb : msw_in_bounds rows columns r.1 r.2)
      (hc : lget g (idxN columns r) = MSW_CLEAR)
      (hv : lget v (idxN columns r) ≠ MSW_CLEAR)
      (hadj : (r.1 - q.1, r.2 - q.2) ∈ neighborOffsets) :
      DigReach rows columns g v p r

/-- The visible grid is closed under past floods: every in-bounds visibly
clear cell has all its in-bounds neighbors already dug — none is still
`Unknown`, and a flag can survive next to a visibly clear cell only on a
non-clear true cell.  This holds at session start and whenever the reveal
engine is at rest. -/
def floodClosed (rows columns : Int) (g v : List Nat) : Prop :=
  ∀ p : Int × Int, msw_in_bounds rows columns p.1 p.2 →
    lget v (idxN columns p) = MSW_CLEAR →
    ∀ d ∈ neighborOffsets, msw_in_bounds rows columns (p.1 + d.1) (p.2 + d.2) →
      lget v (idxN columns (p.1 + d.1, p.2 + d.2)) ≠ MSW_UNKNOWN ∧
      (lget v (idxN columns (p.1 + d.1, p.2 + d.2)) = MSW_FLAG →
        lget g (idxN columns (p.1 + d.1, p.2 + d.2)) ≠ MSW_CLEAR)

/-- The number of cells that are not visibly clear; the flood fill strictly
decreases it, which bounds the recursion depth. -/
def countNonClear (v : List Nat) : Nat :=
  ((Finset.range v.length).filter (fun i => lget v i ≠ MSW_CLEAR)).card

/-- A cell has been processed by the flood fill: a clear true cell is
visibly clear, any other cell shows its true value or keeps its flag. -/
def processedAt (g v : List Nat) (k : Nat) : Prop :=
  (lget g k = MSW_CLEAR → lget v k = MSW_CLEAR) ∧
  (lget g k ≠ MSW_CLEAR → (lget v k = lget g k ∨ lget v k = MSW_FLAG))

theorem lget_set_eq (l : List Nat) (i a : Nat) (h : i < l.length) :
    lget (l.set i a) i = a := by
  induction l generalizing i with
  | nil => simp at h
  | cons x xs ih =>
    cases i with
    | zero => simp [lget]
    | succ j =>
      simp only [List.set_cons_succ, lget, List.getD_cons_succ]
      exact ih j (by simpa using h)

theorem lget_set_ne (l : List Nat) (i j a : Nat) (h : i ≠ j) :
    lget (l.set i a) j = lget l j := by
  induction l generalizing i j with
  | nil => simp [List.set]
  | cons x xs ih =>
    cases i with
    | zero =>
      cases j with
      | zero => exact absurd rfl h
      | succ j' => simp [lget]
    | succ i' =>
      cases j with
      | zero => simp [lget]
      | succ j' =>
        simp only [List.set_cons_succ, lget, List.getD_cons_succ]
        exact ih i' j' (fun hc => h (by simp [hc]))

theorem set_lget_self (l : List Nat) (i : Nat) : l.set i (lget l i) = l := by
  induction l generalizing i with
  | nil => simp
  | cons x xs ih =>
    cases i with
    | zero => simp [lget]
    | succ j =>
      show x :: xs.set j (lget xs j) = x :: xs
      rw [ih]

theorem lget_replicate (n a i : Nat) :
    lget (List.replicate n a) i = if i < n then a else 0 := by
  induction n generalizing i with
  | zero => simp [lget]
  | succ m ih =>
    cases i with
    | zero => simp [lget]
    | succ j =>
      simp only [List.replicate_succ, lget, List.getD_cons_succ] at *
      rw [ih]
      by_cases h : j < m <;> simp [h, Nat.succ_lt_succ_iff]

theorem clear_ne_mine : MSW_CLEAR ≠ MSW_MINE := by decide

theorem mine_ne_clear : MSW_MINE ≠ MSW_CLEAR := by decide

theorem flag_ne_clear : MSW_FLAG ≠ MSW_CLEAR := by decide

theorem unknown_ne_clear : MSW_UNKNOWN ≠ MSW_CLEAR := by decide

/-- Out-of-bounds dig: returns status `0` and the game untouched, before the
lazy-generation check (so in particular the generator is never consulted). -/
theorem msw_dig_oob (gen : GenFun) (dfuel : Nat) (game : smb_mine) (row column : Int)
    (hb : ¬ msw_in_bounds game.rows game.columns row column) :
    msw_dig gen (dfuel + 1) game row column = some (game, 0) := by
  simp [msw_dig, hb]

/-- Unfolding lemma for the flood-fill branch of `msw_dig`. -/
theorem msw_dig_clear_branch (gen : GenFun) (dfuel : Nat) (game : smb_mine)
    (grid : List Nat) (row column : Int)
    (hg : game.grid = some grid)
    (hb : msw_in_bounds game.rows game.columns row column)
    (hc : lget grid (idxN game.columns (row, column)) = MSW_CLEAR)
    (hv : lget game.visible (idxN game.columns (row, column)) ≠ MSW_CLEAR) :
    msw_dig gen (dfuel + 1) game row column =
      Option.map (fun g3 => (g3, 1))
        (digStep (msw_dig gen dfuel) neighborOffsets
          { game with visible := game.visible.set (idxN game.columns (row, column)) MSW_CLEAR }
          row column) := by
  obtain ⟨rows, columns, mines, gridO, v⟩ := game
  simp only at hg hb hc hv ⊢
  subst hg
  rw [msw_dig]
  simp only [resolveGrid, hb, if_true, hc, true_and]
  rw [if_pos hv]
  cases digStep (msw_dig gen dfuel) neighborOffsets
      { rows := rows, columns := columns, mines := mines, grid := some grid,
        visible := v.set (idxN columns (row, column)) MSW_CLEAR } row column <;> rfl

/-- Unfolding lemma for the mine branch of `msw_dig`. -/
theorem msw_dig_mine_branch (gen : GenFun) (dfuel : Nat) (game : smb_mine)
    (grid : List Nat) (row column : Int)
    (hg : game.grid = some grid)
    (hb : msw_in_bounds game.rows game.columns row column)
    (hm : lget grid (idxN game.columns (row, column)) = MSW_MINE) :
    msw_dig gen (dfuel + 1) game row column =
      some ({ game with
        visible := game.visible.set (idxN game.columns (row, column)) MSW_MINE }, -1) := by
  obtain ⟨rows, columns, mines, gridO, v⟩ := game
  simp only at hg hb hm ⊢
  subst hg
  rw [msw_dig]
  simp [resolveGrid, hb, hm, mine_ne_clear]

/-- Unfolding lemma for the flag branch of `msw_dig`. -/
theorem msw_dig_flag_branch (gen : GenFun) (dfuel : Nat) (game : smb_mine)
    (grid : List Nat) (row column : Int)
    (hg : game.grid = some grid)
    (hb : msw_in_bounds game.rows game.columns row column)
    (h1 : ¬ (lget grid (idxN game.columns (row, column)) = MSW_CLEAR ∧
             lget game.visible (idxN game.columns (row, column)) ≠ MSW_CLEAR))
    (hm : lget grid (idxN game.columns (row, column)) ≠ MSW_MINE)
    (hf : lget game.visible (idxN game.columns (row, column)) = MSW_FLAG) :
    msw_dig gen (dfuel + 1) game row column = some (game, 1) := by
  obtain ⟨rows, columns, mines, gridO, v⟩ := game
  simp only at hg hb h1 hm hf ⊢
  subst hg
  rw [msw_dig]
  simp only [resolveGrid, hb, if_true, hm, hf, if_pos, if_neg, not_false_iff]
  rw [if_neg (fun hcond => h1 ⟨hcond.1, by rw [hf]; exact flag_ne_clear⟩)]

/-- Unfolding lemma for the final (direct reveal) branch of `msw_dig`. -/
theorem msw_dig_else_branch (gen : GenFun) (dfuel : Nat) (game : smb_mine)
    (grid : List Nat) (row column : Int)
    (hg : game.grid = some grid)
    (hb : msw_in_bounds game.rows game.columns row column)
    (h1 : ¬ (lget grid (idxN game.columns (row, column)) = MSW_CLEAR ∧
             lget game.visible (idxN game.columns (row, column)) ≠ MSW_CLEAR))
    (hm : lget grid (idxN game.columns (row, column)) ≠ MSW_MINE)
    (hf : lget game.visible (idxN game.columns (row, column)) ≠ MSW_FLAG) :
    msw_dig gen (dfuel + 1) game row column =
      some ({ game with
        visible := game.visible.set (idxN game.columns (row, column))
          (lget grid (idxN game.columns (row, column))) }, 1) := by
  obtain ⟨rows, columns, mines, gridO, v⟩ := game
  simp only at hg hb h1 hm hf ⊢
  subst hg
  rw [msw_dig]
  simp [resolveGrid, hb, h1, hm, hf]

/-! ## Generation helpers for the degenerate configuration -/

theorem msw_place_mines_done (ncells : Nat) (rng : Nat → Nat) (fuel t : Nat)
    (mines : Int) (grid : List Nat) (h : mines ≤ 0) :
    msw_place_mines ncells rng fuel t mines grid = some grid := by
  cases fuel <;> simp [msw_place_mines, h]

/-- On the degenerate 1×1 board with one requested mine, every generation
attempt yields either nothing (fuel ran out) or the single-mine grid. -/
theorem generate_one_one_one (rng : Nat → Nat) (pfuel : Nat) :
    msw_generate_grid 1 1 1 rng pfuel = none ∨
      msw_generate_grid 1 1 1 rng pfuel = some [MSW_MINE] := by
  cases pfuel with
  | zero => left; rfl
  | succ p =>
    right
    have h0 : rng 0 % 1 = 0 := Nat.mod_one _
    have hplace : msw_place_mines 1 rng (p + 1) 0 1 (List.replicate 1 MSW_CLEAR) =
        some [MSW_MINE] := by
      rw [msw_place_mines]
      simp only [h0]
      rw [if_neg (by decide), if_pos (by decide)]
      exact msw_place_mines_done 1 rng p 1 0 _ le_rfl
    show (match msw_place_mines 1 rng (p + 1) 0 1 (List.replicate 1 MSW_CLEAR) with
      | none => none
      | some g => some (msw_count_pass 1 1 g)) = some [MSW_MINE]
    rw [hplace]
    rfl

/-! ## Claims C1, C2, C3, C8, C9 -/

/-- Claim C1 fails on the code: the mine check in `msw_dig` precedes the
flag check, so digging a Flagged cell whose true content is a mine mutates
the visible grid (the flagged mine detonates) and reports the loss outcome
`-1` rather than the neutral `1`.  Concretely, on a 1×3 board with true grid
`[Clear, Count 1, Mine]` and visible grid `[Unknown, Unknown, Flagged]`,
digging `(0, 2)` yields visible `[Unknown, Unknown, DetonatedMine]` and
outcome `-1`. -/
theorem C1_counterexample :
    msw_dig (fun _ _ => none) 2
        { rows := 1, columns := 3, mines := 1, grid := some [48, 49, 42],
          visible := [35, 35, 70] } 0 2 =
      some ({ rows := 1, columns := 3, mines := 1, grid := some [48, 49, 42],
              visible := [35, 35, 42] }, -1) ∧
    ([35, 35, 42] : List Nat) ≠ [35, 35, 70] ∧ (-1 : Int) ≠ 1 := by decide

/-- Claim C1 (amended): digging an in-bounds Flagged cell is a no-op that
reports the neutral outcome `1` when the true cell is a positive count; a
Flagged mine instead detonates (see the counterexample), so `Flagged` is
terminal under dig only for count cells. -/
theorem C1_flag_protects_count_cells (gen : GenFun) (dfuel : Nat) (game : smb_mine)
    (grid : List Nat) (row column : Int)
    (hg : game.grid = some grid)
    (hb : msw_in_bounds game.rows game.columns row column)
    (hcount : MSW_CLEAR < lget grid (idxN game.columns (row, column)) ∧
      lget grid (idxN game.columns (row, column)) ≤ MSW_CLEAR + 8)
    (hflag : lget game.visible (idxN game.columns (row, column)) = MSW_FLAG) :
    msw_dig gen (dfuel + 1) game row column = some (game, 1) := by
  apply msw_dig_flag_branch gen dfuel game grid row column hg hb
  · intro h
    have h1 := hcount.1
    rw [h.1] at h1
    exact absurd h1 (lt_irrefl _)
  · intro h
    rw [h] at hcount
    exact absurd hcount.1 (by decide)
  · exact hflag

theorem C1_flag_protects_count_cells_witness :
    msw_in_bounds 1 3 0 1 ∧
      msw_dig (fun _ _ => none) 5
        { rows := 1, columns := 3, mines := 1, grid := some [48, 49, 42],
          visible := [35, 70, 35] } 0 1 =
        some ({ rows := 1, columns := 3, mines := 1, grid := some [48, 49, 42],
                visible := [35, 70, 35] }, 1) :=
  ⟨by decide,
    C1_flag_protects_count_cells (fun _ _ => none) 4 _ [48, 49, 42] 0 1 rfl (by decide)
      (by decide) (by decide)⟩

/-- Claim C2 is right about the intent and the code is wrong: `msw_flag` has
no bounds check at all.  On a fresh 10×10 session, flagging the
out-of-bounds cell `(0, 15)` computes flat index 15, flags the in-bounds
cell `(1, 5)` and reports success `1` (a mutation, not an `OutOfBounds`
failure); flagging `(-1, 0)` reads outside the `visible` array (C undefined
behaviour, `none` in this embedding). -/
theorem C2_flag_missing_bounds_check :
    ¬ msw_in_bounds 10 10 0 15 ∧
      msw_flag (smb_mine_create 10 10 20) 0 15 =
        some ({ smb_mine_create 10 10 20 with
          visible := (smb_mine_create 10 10 20).visible.set 15 MSW_FLAG }, 1) ∧
      lget ((smb_mine_create 10 10 20).visible.set 15 MSW_FLAG) 15 = MSW_FLAG ∧
      lget (smb_mine_create 10 10 20).visible 15 = MSW_UNKNOWN ∧
      msw_flag (smb_mine_create 10 10 20) (-1) 0 = none := by decide

/-- Claim C3 is right and the code is wrong: `smb_mine_init` (and hence
`smb_mine_create`) performs no validation whatsoever, so the invalid
configuration rows = columns = 1, mineCount = 1 (mineCount = rows*columns)
is accepted and a session is constructed.  The promised rejection never
happens; instead the first dig's generation loops forever — no amount of
fuel makes `msw_initial_grid` succeed, because the board's only cell is
always a mine. -/
theorem C3_create_accepts_invalid_config :
    smb_mine_create 1 1 1 =
      { rows := 1, columns := 1, mines := 1, grid := none, visible := [MSW_UNKNOWN] } ∧
    ∀ (rngs : Nat → Nat → Nat) (pfuel gfuel : Nat),
      msw_initial_grid 1 1 1 rngs pfuel gfuel 0 0 = none := by
  refine ⟨by decide, fun rngs pfuel gfuel => ?_⟩
  induction gfuel with
  | zero => rfl
  | succ gf ih =>
    rw [msw_initial_grid]
    rcases generate_one_one_one (rngs gf) pfuel with h | h
    · rw [h]
    · rw [h]
      show (if lget [MSW_MINE] (idxN 1 (0, 0)) = MSW_CLEAR then some [MSW_MINE]
        else msw_initial_grid 1 1 1 rngs pfuel gf 0 0) = none
      rw [show lget [MSW_MINE] (idxN 1 (0, 0)) = MSW_MINE from rfl, if_neg mine_ne_clear]
      exact ih

/-- Claim C8: digging an in-bounds, already-revealed non-mine cell (its
visible value equals its true value, which is clear or a count) is a no-op
that returns outcome `1`; consequently a second dig of the same cell
returns exactly the same visible grid and the same outcome as the first,
with no additional mutation. -/
theorem C8_dig_idempotent (gen : GenFun) (dfuel : Nat) (game : smb_mine)
    (grid : List Nat) (row column : Int)
    (hg : game.grid = some grid)
    (hb : msw_in_bounds game.rows game.columns row column)
    (hrev : lget game.visible (idxN game.columns (row, column)) =
      lget grid (idxN game.columns (row, column)))
    (hrange : MSW_CLEAR ≤ lget grid (idxN game.columns (row, column)) ∧
      lget grid (idxN game.columns (row, column)) ≤ MSW_CLEAR + 8) :
    msw_dig gen (dfuel + 1) game row column = some (game, 1) ∧
      ∀ g1 s1, msw_dig gen (dfuel + 1) game row column = some (g1, s1) →
        msw_dig gen (dfuel + 1) g1 row column = some (g1, s1) := by
  have hm : lget grid (idxN game.columns (row, column)) ≠ MSW_MINE := by
    intro h; rw [h] at hrange; exact absurd hrange.1 (by decide)
  have hf : lget game.visible (idxN game.columns (row, column)) ≠ MSW_FLAG := by
    rw [hrev]; intro h; rw [h] at hrange; exact absurd hrange.2 (by decide)
  have h1 : ¬ (lget grid (idxN game.columns (row, column)) = MSW_CLEAR ∧
      lget game.visible (idxN game.columns (row, column)) ≠ MSW_CLEAR) := by
    intro h
    exact h.2 (by rw [hrev, h.1])
  have hmain : msw_dig gen (dfuel + 1) game row column = some (game, 1) := by
    have h2 := msw_dig_else_branch gen dfuel game grid row column hg hb h1 hm hf
    rw [h2, ← hrev, set_lget_self]
  refine ⟨hmain, fun g1 s1 hs => ?_⟩
  rw [hmain] at hs
  obtain ⟨rfl, rfl⟩ : game = g1 ∧ (1 : Int) = s1 := by
    constructor <;> [exact congrArg (fun o => (o.getD (game, 1)).1) hs;
      exact congrArg (fun o => (o.getD (game, 1)).2) hs]
  exact hmain

theorem C8_dig_idempotent_witness :
    msw_in_bounds 1 3 0 1 ∧
      msw_dig (fun _ _ => none) 7
        { rows := 1, columns := 3, mines := 1, grid := some [48, 49, 42],
          visible := [48, 49, 35] } 0 1 =
        some ({ rows := 1, columns := 3, mines := 1, grid := some [48, 49, 42],
                visible := [48, 49, 35] }, 1) :=
  ⟨by decide,
    (C8_dig_idempotent (fun _ _ => none) 6 _ [48, 49, 42] 0 1 rfl (by decide) (by decide)
      (by decide)).1⟩

/-- Claim C9: digging at any out-of-bounds coordinates fails with status `0`
(`OutOfBounds`) and performs no mutation at all: the game (both grids, in
particular a still-`NULL` true grid) is returned unchanged, the generator is
never consulted (the conclusion holds for every `gen`), and the session
remains usable. -/
theorem C9_dig_out_of_bounds (gen : GenFun) (dfuel : Nat) (game : smb_mine)
    (row column : Int)
    (hb : ¬ msw_in_bounds game.rows game.columns row column) :
    msw_dig gen (dfuel + 1) game row column = some (game, 0) :=
  msw_dig_oob gen dfuel game row column hb

theorem C9_dig_out_of_bounds_witness :
    ¬ msw_in_bounds 2 2 (-1) 0 ∧
      msw_dig (fun _ _ => none) 3 (smb_mine_create 2 2 1) (-1) 0 =
        some (smb_mine_create 2 2 1, 0) :=
  ⟨by decide, C9_dig_out_of_bounds (fun _ _ => none) 2 (smb_mine_create 2 2 1) (-1) 0
    (by decide)⟩

/-! ## Mine counting and the generation claims C5, C6 -/

theorem lget_lt_length (l : List Nat) (i : Nat) (h : lget l i ≠ 0) : i < l.length := by
  by_contra hle
  apply h
  unfold lget
  rw [List.getD_eq_default]
  exact Nat.le_of_not_lt hle

theorem set_of_length_le (l : List Nat) (i a : Nat) (h : l.length ≤ i) : l.set i a = l := by
  induction l generalizing i with
  | nil => simp
  | cons x xs ih =>
    cases i with
    | zero => simp at h
    | succ j => simp only [List.set_cons_succ]; rw [ih j (by simpa using h)]

theorem foldl_preserves {α β : Type} (P : β → Prop) (f : β → α → β) (l : List α) (b : β)
    (hstep : ∀ b' x, P b' → P (f b' x)) (hb : P b) : P (l.foldl f b) := by
  induction l generalizing b with
  | nil => exact hb
  | cons x xs ih => exact ih (f b x) (hstep b x hb)

theorem countMines_set_mine (l : List Nat) (i : Nat) (hi : i < l.length)
    (hne : lget l i ≠ MSW_MINE) :
    countMines (l.set i MSW_MINE) = countMines l + 1 := by
  unfold countMines
  rw [List.length_set]
  have hset : (Finset.range l.length).filter (fun j => lget (l.set i MSW_MINE) j = MSW_MINE) =
      insert i ((Finset.range l.length).filter (fun j => lget l j = MSW_MINE)) := by
    ext j
    simp only [Finset.mem_filter, Finset.mem_insert, Finset.mem_range]
    constructor
    · intro hj
      obtain ⟨hjr, hjv⟩ := hj
      by_cases hij : i = j
      · exact Or.inl hij.symm
      · exact Or.inr ⟨hjr, by rwa [lget_set_ne l i j _ hij] at hjv⟩
    · intro hj
      rcases hj with rfl | ⟨hj, hval⟩
      · exact ⟨hi, lget_set_eq l j _ hi⟩
      · by_cases hij : i = j
        · subst hij; exact absurd hval hne
        · exact ⟨hj, by rwa [lget_set_ne l i j _ hij]⟩
  rw [hset, Finset.card_insert_of_not_mem]
  simp only [Finset.mem_filter, not_and]
  intro _
  exact hne

theorem countMines_congr (l1 l2 : List Nat) (hlen : l2.length = l1.length)
    (h : ∀ i, i < l1.length → (lget l2 i = MSW_MINE ↔ lget l1 i = MSW_MINE)) :
    countMines l2 = countMines l1 := by
  unfold countMines
  rw [hlen]
  congr 1
  apply Finset.filter_congr
  intro j hj
  simp only [Finset.mem_range] at hj
  simpa using h j hj

theorem countMines_replicate_clear (n : Nat) :
    countMines (List.replicate n MSW_CLEAR) = 0 := by
  unfold countMines
  rw [Finset.card_eq_zero]
  ext j
  simp only [Finset.mem_filter, Finset.mem_range, Finset.not_mem_empty, iff_false, not_and,
    List.length_replicate]
  intro hj
  rw [lget_replicate, if_pos hj]
  decide

/-- The rejection sampler: on success it returns a grid of the same length
with exactly `mines.toNat` additional mines, every other cell untouched. -/
theorem msw_place_mines_spec (ncells : Nat) (rng : Nat → Nat) (fuel : Nat) :
    ∀ (t : Nat) (mines : Int) (grid g : List Nat),
      msw_place_mines ncells rng fuel t mines grid = some g →
      g.length = grid.length ∧ countMines g = countMines grid + mines.toNat ∧
        ∀ i, i < grid.length → lget g i = lget grid i ∨ lget g i = MSW_MINE := by
  induction fuel with
  | zero =>
    intro t mines grid g h
    rw [msw_place_mines] at h
    by_cases hm : mines ≤ 0
    · rw [if_pos hm] at h
      obtain rfl : grid = g := by injection h
      refine ⟨rfl, ?_, fun i _ => Or.inl rfl⟩
      omega
    · rw [if_neg hm] at h
      exact absurd h (by simp)
  | succ fl ih =>
    intro t mines grid g h
    rw [msw_place_mines] at h
    by_cases hm : mines ≤ 0
    · rw [if_pos hm] at h
      obtain rfl : grid = g := by injection h
      refine ⟨rfl, ?_, fun i _ => Or.inl rfl⟩
      omega
    · rw [if_neg hm] at h
      simp only [] at h
      by_cases hc : lget grid (rng t % ncells) = MSW_CLEAR
      · rw [if_pos hc] at h
        have hlt : rng t % ncells < grid.length :=
          lget_lt_length grid _ (by rw [hc]; decide)
        obtain ⟨hlen, hcount, hcells⟩ := ih (t + 1) (mines - 1) _ g h
        rw [List.length_set] at hlen
        refine ⟨hlen, ?_, ?_⟩
        · rw [hcount, countMines_set_mine grid _ hlt (by rw [hc]; exact clear_ne_mine)]
          omega
        · intro i hi
          rcases hcells i (by rwa [List.length_set]) with hsame | hmine
          · by_cases hik : rng t % ncells = i
            · subst hik
              rw [lget_set_eq _ _ _ hlt] at hsame
              exact Or.inr hsame
            · rw [lget_set_ne _ _ _ _ hik] at hsame
              exact Or.inl hsame
          · exact Or.inr hmine
      · rw [if_neg hc] at h
        exact ih (t + 1) mines grid g h

theorem bumpStep_passInv (rows columns : Int) (r c : Int) (w0 w' : List Nat)
    (d : Int × Int) (hP : passInv w0 w') :
    passInv w0 (bumpStep rows columns r c w' d) := by
  unfold bumpStep
  split
  case isFalse => exact hP
  case isTrue hcond =>
    obtain ⟨hlen, hok, hmine⟩ := hP
    by_cases hklen : idxN columns (r + d.1, c + d.2) < w'.length
    · have hkold : lget w' (idxN columns (r + d.1, c + d.2)) ≠ MSW_MINE := hcond.2
      have hge : MSW_CLEAR ≤ lget w' (idxN columns (r + d.1, c + d.2)) := by
        rcases hok _ hklen with hm | hge
        · exact absurd hm hkold
        · exact hge
      refine ⟨by rw [List.length_set, hlen], ?_, ?_⟩
      · intro i hi
        rw [List.length_set] at hi
        by_cases hik : idxN columns (r + d.1, c + d.2) = i
        · subst hik
          rw [lget_set_eq _ _ _ hklen]
          right
          omega
        · rw [lget_set_ne _ _ _ _ hik]
          exact hok i hi
      · intro i hi
        by_cases hik : idxN columns (r + d.1, c + d.2) = i
        · subst hik
          rw [lget_set_eq _ _ _ hklen]
          have hlhs : ¬ (lget w' (idxN columns (r + d.1, c + d.2)) + 1 = MSW_MINE) := by
            unfold MSW_MINE MSW_CLEAR at *
            omega
          rw [← hmine _ hi]
          simp [hlhs, hkold]
        · rw [lget_set_ne _ _ _ _ hik]
          exact hmine i hi
    · rw [set_of_length_le _ _ _ (Nat.le_of_not_lt hklen)]
      exact ⟨hlen, hok, hmine⟩

theorem msw_bump_neighbors_passInv (rows columns : Int) (r c : Int) (w0 w : List Nat)
    (h : passInv w0 w) : passInv w0 (msw_bump_neighbors rows columns r c w) := by
  unfold msw_bump_neighbors
  exact foldl_preserves (passInv w0) _ neighborOffsets w
    (fun w' d hP => bumpStep_passInv rows columns r c w0 w' d hP) h

theorem msw_count_pass_passInv (rows columns : Int) (w : List Nat) (hok : gridValuesOK w) :
    passInv w (msw_count_pass rows columns w) := by
  unfold msw_count_pass
  refine foldl_preserves (passInv w) _ (cellList rows columns) w ?_ ⟨rfl, hok, fun i _ => Iff.rfl⟩
  intro w' p hP
  dsimp only
  split
  · exact msw_bump_neighbors_passInv rows columns p.1 p.2 w w' hP
  · exact hP

/-- Whenever `msw_generate_grid` succeeds it returns a grid of the board's
size with exactly `mines.toNat` mine cells, all other values being at least
`MSW_CLEAR`. -/
theorem msw_generate_grid_mines (rows columns mines : Int) (rng : Nat → Nat) (pfuel : Nat)
    (g : List Nat) (h : msw_generate_grid rows columns mines rng pfuel = some g) :
    g.length = (rows * columns).toNat ∧ countMines g = mines.toNat ∧ gridValuesOK g := by
  unfold msw_generate_grid at h
  rcases hp : msw_place_mines (rows * columns).toNat rng pfuel 0 mines
      (List.replicate (rows * columns).toNat MSW_CLEAR) with _ | g0
  · rw [hp] at h; exact absurd h (by simp)
  · rw [hp] at h
    obtain rfl : msw_count_pass rows columns g0 = g := by injection h
    obtain ⟨hlen0, hcm0, hvals0⟩ := msw_place_mines_spec _ rng pfuel 0 mines _ g0 hp
    rw [List.length_replicate] at hlen0
    have hok0 : gridValuesOK g0 := by
      intro i hi
      rcases hvals0 i (by simpa [hlen0] using hi) with hs | hm
      · rw [hs, lget_replicate, if_pos (by rwa [hlen0] at hi)]
        right; exact le_refl _
      · exact Or.inl hm
    obtain ⟨hlenp, hokp, hminep⟩ := msw_count_pass_passInv rows columns g0 hok0
    refine ⟨by rw [hlenp, hlen0], ?_, hokp⟩
    rw [countMines_congr g0 _ hlenp hminep, hcm0, countMines_replicate_clear]
    exact Nat.zero_add _

/-- Claim C5: whenever generation with a required-clear cell succeeds for a
valid configuration and in-bounds cell `(r, c)`, the produced grid contains
exactly `mineCount` mines and cell `(r, c)` is clear. -/
theorem C5_initial_grid_mines_and_clear (rows columns mines : Int)
    (rngs : Nat → Nat → Nat) (pfuel gfuel : Nat) (r c : Int) (g : List Nat)
    (hrows : 0 < rows) (hcols : 0 < columns) (hm0 : 0 ≤ mines)
    (hmlt : mines < rows * columns)
    (hb : msw_in_bounds rows columns r c)
    (hgen : msw_initial_grid rows columns mines rngs pfuel gfuel r c = some g) :
    countMines g = mines.toNat ∧ lget g (idxN columns (r, c)) = MSW_CLEAR := by
  induction gfuel with
  | zero => exact absurd hgen (by simp [msw_initial_grid])
  | succ gf ih =>
    rw [msw_initial_grid] at hgen
    rcases hgen2 : msw_generate_grid rows columns mines (rngs gf) pfuel with _ | g0
    · rw [hgen2] at hgen
      exact absurd hgen (by simp)
    · rw [hgen2] at hgen
      dsimp only at hgen
      by_cases hc : lget g0 (idxN columns (r, c)) = MSW_CLEAR
      · rw [if_pos hc] at hgen
        obtain rfl : g0 = g := by injection hgen
        exact ⟨(msw_generate_grid_mines rows columns mines (rngs gf) pfuel g0 hgen2).2.1, hc⟩
      · rw [if_neg hc] at hgen
        exact ih hgen

theorem C5_initial_grid_mines_and_clear_witness :
    (0 : Int) < 3 ∧ (0 : Int) < 1 ∧ (0 : Int) ≤ 1 ∧ (1 : Int) < 3 * 1 ∧
      msw_in_bounds 3 1 0 0 ∧
      msw_initial_grid 3 1 1 (fun _ _ => 2) 2 1 0 0 = some [48, 49, 42] ∧
      countMines [48, 49, 42] = (1 : Int).toNat ∧
      lget [48, 49, 42] (idxN 1 (0, 0)) = MSW_CLEAR :=
  ⟨by decide, by decide, by decide, by decide, by decide, by decide,
    C5_initial_grid_mines_and_clear 3 1 1 (fun _ _ => 2) 2 1 0 0 [48, 49, 42]
      (by decide) (by decide) (by decide) (by decide) (by decide) (by decide)⟩

/-! ## Index arithmetic and the cell list -/

theorem msw_index_nonneg (rows columns : Int) (p : Int × Int)
    (hb : msw_in_bounds rows columns p.1 p.2) : 0 ≤ msw_index columns p.1 p.2 := by
  obtain ⟨h1, h2, h3, h4⟩ := hb
  have h5 : 0 ≤ p.1 * columns := mul_nonneg h1 (by omega)
  unfold msw_index
  omega

theorem msw_index_mono (columns : Int) (r1 c1 r2 c2 : Int) (hc1 : 0 ≤ c1)
    (hc1l : c1 < columns) (hc2 : 0 ≤ c2) (hlt : r1 < r2) :
    msw_index columns r1 c1 < msw_index columns r2 c2 := by
  unfold msw_index
  have hb2 : (r1 + 1) * columns ≤ r2 * columns :=
    mul_le_mul_of_nonneg_right (by omega) (by omega)
  rw [add_mul, one_mul] at hb2
  omega

theorem msw_index_lt (rows columns : Int) (p : Int × Int)
    (hb : msw_in_bounds rows columns p.1 p.2) :
    msw_index columns p.1 p.2 < rows * columns := by
  obtain ⟨h1, h2, h3, h4⟩ := hb
  have h5 : (p.1 + 1) * columns ≤ rows * columns :=
    mul_le_mul_of_nonneg_right (by omega) (by omega)
  rw [add_mul, one_mul] at h5
  unfold msw_index
  omega

theorem idxN_lt (rows columns : Int) (p : Int × Int)
    (hb : msw_in_bounds rows columns p.1 p.2) :
    idxN columns p < (rows * columns).toNat := by
  have h1 := msw_index_nonneg rows columns p hb
  have h2 := msw_index_lt rows columns p hb
  unfold idxN
  omega

theorem msw_index_coord_inj (rows columns : Int) (p q : Int × Int)
    (hp : msw_in_bounds rows columns p.1 p.2) (hq : msw_in_bounds rows columns q.1 q.2)
    (h : msw_index columns p.1 p.2 = msw_index columns q.1 q.2) : p = q := by
  obtain ⟨hp1, hp2, hp3, hp4⟩ := hp
  obtain ⟨hq1, hq2, hq3, hq4⟩ := hq
  have hrow : p.1 = q.1 := by
    by_contra hne
    rcases lt_or_gt_of_ne hne with hlt | hgt
    · exact absurd h (ne_of_lt (msw_index_mono columns p.1 p.2 q.1 q.2 hp3 hp4 hq3 hlt))
    · exact absurd h.symm (ne_of_lt (msw_index_mono columns q.1 q.2 p.1 p.2 hq3 hq4 hp3 hgt))
  have hcol : p.2 = q.2 := by
    unfold msw_index at h
    rw [hrow] at h
    omega
  exact Prod.ext hrow hcol

theorem idxN_coord_inj (rows columns : Int) (p q : Int × Int)
    (hp : msw_in_bounds rows columns p.1 p.2) (hq : msw_in_bounds rows columns q.1 q.2)
    (h : idxN columns p = idxN columns q) : p = q := by
  apply msw_index_coord_inj rows columns p q hp hq
  have h1 := msw_index_nonneg rows columns p hp
  have h2 := msw_index_nonneg rows columns q hq
  unfold idxN at h
  omega

theorem neighborOffsets_nodup : neighborOffsets.Nodup := by decide

theorem neighborOffsets_neg_mem (d : Int × Int) (h : d ∈ neighborOffsets) :
    (-d.1, -d.2) ∈ neighborOffsets := by
  fin_cases h <;> decide

theorem neighborOffsets_neg_mem_iff (d : Int × Int) :
    (-d.1, -d.2) ∈ neighborOffsets ↔ d ∈ neighborOffsets := by
  constructor
  · intro h
    have h2 := neighborOffsets_neg_mem _ h
    simpa using h2
  · exact neighborOffsets_neg_mem d

theorem mem_cellList (rows columns : Int) (s : Int × Int) :
    s ∈ cellList rows columns ↔ msw_in_bounds rows columns s.1 s.2 := by
  unfold cellList
  rw [List.mem_flatMap]
  constructor
  · rintro ⟨r, hr, hs⟩
    rw [List.mem_map] at hs
    obtain ⟨c, hc, rfl⟩ := hs
    rw [List.mem_range] at hr hc
    refine ⟨?_, ?_, ?_, ?_⟩ <;> dsimp only <;> omega
  · rintro ⟨h1, h2, h3, h4⟩
    refine ⟨s.1.toNat, ?_, ?_⟩
    · rw [List.mem_range]; omega
    · rw [List.mem_map]
      refine ⟨s.2.toNat, by rw [List.mem_range]; omega, ?_⟩
      obtain ⟨a, b⟩ := s
      simp only at h1 h3 ⊢
      rw [Int.toNat_of_nonneg h1, Int.toNat_of_nonneg h3]

theorem cellList_nodup (rows columns : Int) : (cellList rows columns).Nodup := by
  unfold cellList
  rw [List.nodup_flatMap]
  constructor
  · intro r hr
    refine List.Nodup.map ?_ (List.nodup_range columns.toNat)
    intro a b hab
    simpa using hab
  · refine List.Pairwise.imp ?_ (List.nodup_range rows.toNat)
    intro r1 r2 hne
    intro x h1 h2
    simp only [List.mem_map, List.mem_range] at h1 h2
    obtain ⟨c1, hc1, rfl⟩ := h1
    obtain ⟨c2, hc2, hx⟩ := h2
    have hr : (r2 : Int) = (r1 : Int) := congrArg Prod.fst hx
    exact hne (by exact_mod_cast hr.symm)

/-! ## Exact value of the count pass -/

theorem countP_disjoint_or {α : Type} (l : List α) (p q : α → Bool)
    (h : ∀ a ∈ l, ¬(p a = true ∧ q a = true)) :
    l.countP (fun a => p a || q a) = l.countP p + l.countP q := by
  induction l with
  | nil => simp
  | cons x xs ih =>
    simp only [List.countP_cons]
    rw [ih (fun a ha => h a (List.mem_cons_of_mem x ha))]
    by_cases hp : p x = true <;> by_cases hq : q x = true
    · exact absurd ⟨hp, hq⟩ (h x (List.mem_cons_self x xs))
    all_goals simp [hp, hq] <;> omega

theorem bumpStep_fold_value (rows columns : Int) (g0 : List Nat)
    (hlen : g0.length = (rows * columns).toNat) (s t : Int × Int)
    (hbt : msw_in_bounds rows columns t.1 t.2)
    (hnm : lget g0 (idxN columns t) ≠ MSW_MINE) :
    ∀ (D : List (Int × Int)), D.Nodup → ∀ w, passInv g0 w →
      lget (D.foldl (bumpStep rows columns s.1 s.2) w) (idxN columns t) =
        lget w (idxN columns t) +
          (if (t.1 - s.1, t.2 - s.2) ∈ D then 1 else 0) := by
  intro D
  induction D with
  | nil => intro _ w _; simp
  | cons d D' ih =>
    intro hnd w hInv
    obtain ⟨hd_notmem, hnd'⟩ := List.nodup_cons.mp hnd
    have hstep := bumpStep_passInv rows columns s.1 s.2 g0 w d hInv
    simp only [List.foldl_cons]
    rw [ih hnd' _ hstep]
    by_cases hdt : (s.1 + d.1, s.2 + d.2) = t
    · have hdt1 : s.1 + d.1 = t.1 := congrArg Prod.fst hdt
      have hdt2 : s.2 + d.2 = t.2 := congrArg Prod.snd hdt
      have hteq : (t.1 - s.1, t.2 - s.2) = d := by
        obtain ⟨d1, d2⟩ := d
        simp only [Prod.mk.injEq] at hdt1 hdt2 ⊢
        omega
      have hidxlt : idxN columns t < g0.length := by
        rw [hlen]; exact idxN_lt rows columns t hbt
      have hwlt : idxN columns t < w.length := by rw [hInv.1]; exact hidxlt
      have hwnm : lget w (idxN columns t) ≠ MSW_MINE := by
        intro hcon
        exact hnm ((hInv.2.2 (idxN columns t) hidxlt).mp hcon)
      have hbv : bumpStep rows columns s.1 s.2 w d =
          w.set (idxN columns t) (lget w (idxN columns t) + 1) := by
        unfold bumpStep
        simp only [hdt1, hdt2, Prod.mk.eta]
        rw [if_pos ⟨hbt, hwnm⟩]
      rw [hbv, lget_set_eq _ _ _ hwlt, hteq]
      have h1 : (d ∈ d :: D') := List.mem_cons_self d D'
      rw [if_neg (fun hc => hd_notmem hc), if_pos h1]
    · have hne : lget (bumpStep rows columns s.1 s.2 w d) (idxN columns t) =
          lget w (idxN columns t) := by
        unfold bumpStep
        split
        case isFalse => rfl
        case isTrue hcond =>
          apply lget_set_ne
          intro hidx
          exact hdt (idxN_coord_inj rows columns _ t hcond.1 hbt hidx)
      rw [hne]
      have htne : (t.1 - s.1, t.2 - s.2) ≠ d := by
        intro hcc
        apply hdt
        obtain ⟨d1, d2⟩ := d
        obtain ⟨t1, t2⟩ := t
        simp only [Prod.mk.injEq] at hcc ⊢
        omega
      have hiff : ((t.1 - s.1, t.2 - s.2) ∈ d :: D') ↔ ((t.1 - s.1, t.2 - s.2) ∈ D') := by
        simp [List.mem_cons, htne]
      rw [if_congr hiff rfl rfl]

theorem msw_bump_neighbors_value (rows columns : Int) (g0 : List Nat)
    (hlen : g0.length = (rows * columns).toNat) (s t : Int × Int)
    (hbt : msw_in_bounds rows columns t.1 t.2)
    (hnm : lget g0 (idxN columns t) ≠ MSW_MINE) (w : List Nat) (hInv : passInv g0 w) :
    lget (msw_bump_neighbors rows columns s.1 s.2 w) (idxN columns t) =
      lget w (idxN columns t) +
        (if (t.1 - s.1, t.2 - s.2) ∈ neighborOffsets then 1 else 0) :=
  bumpStep_fold_value rows columns g0 hlen s t hbt hnm neighborOffsets
    neighborOffsets_nodup w hInv

theorem countP_eq_single_of_nodup {α : Type} [DecidableEq α] (l : List α) (hl : l.Nodup)
    (e : α) : l.countP (fun a => decide (a = e)) = if e ∈ l then 1 else 0 := by
  induction l with
  | nil => simp
  | cons x xs ih =>
    obtain ⟨hx, hnd⟩ := List.nodup_cons.mp hl
    simp only [List.countP_cons, ih hnd, List.mem_cons]
    by_cases hex : e = x
    · subst hex
      simp [hx]
    · have hxe : ¬ (x = e) := fun hc => hex hc.symm
      by_cases hmem : e ∈ xs <;> simp [hxe, hmem, hex]

theorem msw_count_pass_fold_value (rows columns : Int) (g0 : List Nat)
    (hlen : g0.length = (rows * columns).toNat) (t : Int × Int)
    (hbt : msw_in_bounds rows columns t.1 t.2)
    (hnm : lget g0 (idxN columns t) ≠ MSW_MINE) :
    ∀ (L : List (Int × Int)), L.Nodup →
      (∀ x ∈ L, msw_in_bounds rows columns x.1 x.2) →
      ∀ w, passInv g0 w →
      lget (L.foldl (fun g p => if lget g (idxN columns p) = MSW_MINE then
          msw_bump_neighbors rows columns p.1 p.2 g else g) w) (idxN columns t) =
        lget w (idxN columns t) +
          neighborOffsets.countP (fun d =>
            decide ((t.1 + d.1, t.2 + d.2) ∈ L) &&
            decide (lget g0 (idxN columns (t.1 + d.1, t.2 + d.2)) = MSW_MINE)) := by
  intro L
  induction L with
  | nil => intro _ _ w _; simp
  | cons s L' ih =>
    intro hnd hib w hInv
    obtain ⟨hs_notmem, hnd'⟩ := List.nodup_cons.mp hnd
    have hsb : msw_in_bounds rows columns s.1 s.2 := hib s (List.mem_cons_self s L')
    have hsidx : idxN columns s < g0.length := by
      rw [hlen]; exact idxN_lt rows columns s hsb
    simp only [List.foldl_cons]
    by_cases hm : lget g0 (idxN columns s) = MSW_MINE
    · have hwm : lget w (idxN columns s) = MSW_MINE := (hInv.2.2 _ hsidx).mpr hm
      rw [if_pos hwm]
      have hInv2 := msw_bump_neighbors_passInv rows columns s.1 s.2 g0 w hInv
      rw [ih hnd' (fun x hx => hib x (List.mem_cons_of_mem s hx)) _ hInv2]
      rw [msw_bump_neighbors_value rows columns g0 hlen s t hbt hnm w hInv]
      have hsplit : neighborOffsets.countP (fun d =>
          decide ((t.1 + d.1, t.2 + d.2) ∈ s :: L') &&
          decide (lget g0 (idxN columns (t.1 + d.1, t.2 + d.2)) = MSW_MINE)) =
          neighborOffsets.countP (fun d =>
            (decide ((t.1 + d.1, t.2 + d.2) = s) &&
              decide (lget g0 (idxN columns (t.1 + d.1, t.2 + d.2)) = MSW_MINE)) ||
            (decide ((t.1 + d.1, t.2 + d.2) ∈ L') &&
              decide (lget g0 (idxN columns (t.1 + d.1, t.2 + d.2)) = MSW_MINE))) := by
        apply List.countP_congr
        intro d _
        simp only [Bool.and_eq_true, Bool.or_eq_true, decide_eq_true_eq, List.mem_cons]
        tauto
      have hdisj := countP_disjoint_or neighborOffsets
        (fun d => decide ((t.1 + d.1, t.2 + d.2) = s) &&
          decide (lget g0 (idxN columns (t.1 + d.1, t.2 + d.2)) = MSW_MINE))
        (fun d => decide ((t.1 + d.1, t.2 + d.2) ∈ L') &&
          decide (lget g0 (idxN columns (t.1 + d.1, t.2 + d.2)) = MSW_MINE))
        (by
          intro d _ hcon
          obtain ⟨hp, hq⟩ := hcon
          simp only [Bool.and_eq_true, decide_eq_true_eq] at hp hq
          exact hs_notmem (hp.1 ▸ hq.1))
      have hsingle : neighborOffsets.countP (fun d =>
          decide ((t.1 + d.1, t.2 + d.2) = s) &&
          decide (lget g0 (idxN columns (t.1 + d.1, t.2 + d.2)) = MSW_MINE)) =
          (if (t.1 - s.1, t.2 - s.2) ∈ neighborOffsets then 1 else 0) := by
        have hcpt : neighborOffsets.countP (fun d =>
            decide ((t.1 + d.1, t.2 + d.2) = s) &&
            decide (lget g0 (idxN columns (t.1 + d.1, t.2 + d.2)) = MSW_MINE)) =
            neighborOffsets.countP (fun d => decide (d = (s.1 - t.1, s.2 - t.2))) := by
          apply List.countP_congr
          intro d _
          simp only [Bool.and_eq_true, decide_eq_true_eq]
          constructor
          · rintro ⟨h1, _⟩
            obtain ⟨d1, d2⟩ := d
            have e1 : t.1 + d1 = s.1 := congrArg Prod.fst h1
            have e2 : t.2 + d2 = s.2 := congrArg Prod.snd h1
            simp only [Prod.mk.injEq]
            omega
          · intro h1
            obtain ⟨d1, d2⟩ := d
            have e1 : d1 = s.1 - t.1 := congrArg Prod.fst h1
            have e2 : d2 = s.2 - t.2 := congrArg Prod.snd h1
            have hps : (t.1 + d1, t.2 + d2) = s := by
              obtain ⟨s1, s2⟩ := s
              simp only [Prod.mk.injEq] at e1 e2 ⊢
              omega
            refine ⟨hps, ?_⟩
            rw [hps]
            exact hm
        rw [hcpt, countP_eq_single_of_nodup neighborOffsets neighborOffsets_nodup]
        have hmemiff : ((s.1 - t.1, s.2 - t.2) ∈ neighborOffsets) ↔
            ((t.1 - s.1, t.2 - s.2) ∈ neighborOffsets) := by
          have h1 := neighborOffsets_neg_mem_iff (t.1 - s.1, t.2 - s.2)
          simpa [neg_sub] using h1
        by_cases hmem : (t.1 - s.1, t.2 - s.2) ∈ neighborOffsets
        · rw [if_pos hmem, if_pos (hmemiff.mpr hmem)]
        · rw [if_neg hmem, if_neg (fun hc => hmem (hmemiff.mp hc))]
      rw [hsplit, hdisj, hsingle]
      omega
    · have hwm : lget w (idxN columns s) ≠ MSW_MINE :=
        fun hc => hm ((hInv.2.2 _ hsidx).mp hc)
      rw [if_neg hwm, ih hnd' (fun x hx => hib x (List.mem_cons_of_mem s hx)) _ hInv]
      congr 1
      apply List.countP_congr
      intro d _
      simp only [Bool.and_eq_true, decide_eq_true_eq, List.mem_cons]
      by_cases hds : (t.1 + d.1, t.2 + d.2) = s
      · rw [hds]
        simp [hm]
      · simp [hds]

/-- Claim C6: in every grid produced by `msw_generate_grid`, each non-mine
cell's value is `MSW_CLEAR` plus the number of its in-bounds neighbors that
are mines — the per-mine increment pass computes exactly the per-cell
recount. -/
theorem C6_counts_match_recount (rows columns mines : Int) (rng : Nat → Nat) (pfuel : Nat)
    (g : List Nat)
    (hgen : msw_generate_grid rows columns mines rng pfuel = some g)
    (t : Int × Int) (hb : msw_in_bounds rows columns t.1 t.2)
    (hnm : lget g (idxN columns t) ≠ MSW_MINE) :
    lget g (idxN columns t) = MSW_CLEAR + recountMineNeighbors rows columns g t := by
  unfold msw_generate_grid at hgen
  rcases hp : msw_place_mines (rows * columns).toNat rng pfuel 0 mines
      (List.replicate (rows * columns).toNat MSW_CLEAR) with _ | g0
  · rw [hp] at hgen
    exact absurd hgen (by simp)
  · rw [hp] at hgen
    obtain rfl : msw_count_pass rows columns g0 = g := by injection hgen
    obtain ⟨hlen0, hcm0, hvals0⟩ := msw_place_mines_spec _ rng pfuel 0 mines _ g0 hp
    rw [List.length_replicate] at hlen0
    have hok0 : gridValuesOK g0 := by
      intro i hi
      rcases hvals0 i (by rw [List.length_replicate]; rwa [hlen0] at hi) with hs | hm2
      · rw [hs, lget_replicate, if_pos (by rwa [hlen0] at hi)]
        right
        exact le_refl _
      · exact Or.inl hm2
    have hInv := msw_count_pass_passInv rows columns g0 hok0
    have htidx : idxN columns t < g0.length := by
      rw [hlen0]; exact idxN_lt rows columns t hb
    have hnm0 : lget g0 (idxN columns t) ≠ MSW_MINE := by
      intro hc
      exact hnm ((hInv.2.2 _ htidx).mpr hc)
    have hval := msw_count_pass_fold_value rows columns g0 hlen0 t hb hnm0
      (cellList rows columns) (cellList_nodup rows columns)
      (fun x hx => (mem_cellList rows columns x).mp hx)
      g0 ⟨rfl, hok0, fun i _ => Iff.rfl⟩
    have hfold : (cellList rows columns).foldl
        (fun g p => if lget g (idxN columns p) = MSW_MINE then
          msw_bump_neighbors rows columns p.1 p.2 g else g) g0 =
        msw_count_pass rows columns g0 := rfl
    rw [hfold] at hval
    rw [hval]
    have hg0t : lget g0 (idxN columns t) = MSW_CLEAR := by
      rcases hvals0 _ (by rw [List.length_replicate]; rwa [hlen0] at htidx) with hs | hm2
      · rw [hs, lget_replicate, if_pos (by rwa [hlen0] at htidx)]
      · exact absurd hm2 hnm0
    rw [hg0t]
    congr 1
    unfold recountMineNeighbors
    apply List.countP_congr
    intro d _
    simp only [Bool.and_eq_true, decide_eq_true_eq, mem_cellList]
    constructor
    · rintro ⟨hb2, hm2⟩
      refine ⟨hb2, ?_⟩
      have hidx2 : idxN columns (t.1 + d.1, t.2 + d.2) < g0.length := by
        rw [hlen0]; exact idxN_lt rows columns _ hb2
      exact (hInv.2.2 _ hidx2).mpr hm2
    · rintro ⟨hb2, hm2⟩
      refine ⟨hb2, ?_⟩
      have hidx2 : idxN columns (t.1 + d.1, t.2 + d.2) < g0.length := by
        rw [hlen0]; exact idxN_lt rows columns _ hb2
      exact (hInv.2.2 _ hidx2).mp hm2

theorem C6_counts_match_recount_witness :
    msw_generate_grid 3 1 1 (fun _ => 2) 2 = some [48, 49, 42] ∧
      msw_in_bounds 3 1 1 0 ∧
      lget [48, 49, 42] (idxN 1 (1, 0)) ≠ MSW_MINE ∧
      lget [48, 49, 42] (idxN 1 (1, 0)) =
        MSW_CLEAR + recountMineNeighbors 3 1 [48, 49, 42] (1, 0) :=
  ⟨by decide, by decide, by decide,
    C6_counts_match_recount 3 1 1 (fun _ => 2) 2 [48, 49, 42] (by decide) (1, 0)
      (by decide) (by decide)⟩

/-! ## Visible-grid invariants and stability of the reveal engine -/

theorem noMineNearClear_of_countsOK (rows columns : Int) (g : List Nat)
    (h : countsOK rows columns g) : noMineNearClear rows columns g := by
  intro p hp hclear d hd hdb hmine
  have hc2 := h p hp (by rw [hclear]; exact clear_ne_mine)
  rw [hclear] at hc2
  have hz : recountMineNeighbors rows columns g p = 0 := by omega
  unfold recountMineNeighbors at hz
  rw [List.countP_eq_zero] at hz
  exact hz d hd (by simp [hdb, hmine])

theorem countsOK_of_all_clear (rows columns : Int) (g : List Nat)
    (hlen : g.length = (rows * columns).toNat)
    (h : ∀ i, i < g.length → lget g i = MSW_CLEAR) : countsOK rows columns g := by
  intro p hp _
  have hidx : idxN columns p < g.length := by
    rw [hlen]; exact idxN_lt rows columns p hp
  rw [h _ hidx]
  have hz : recountMineNeighbors rows columns g p = 0 := by
    unfold recountMineNeighbors
    rw [List.countP_eq_zero]
    intro d _
    simp only [Bool.and_eq_true, decide_eq_true_eq, not_and]
    intro hdb hmine
    have hidx2 : idxN columns (p.1 + d.1, p.2 + d.2) < g.length := by
      rw [hlen]; exact idxN_lt rows columns _ hdb
    rw [h _ hidx2] at hmine
    exact clear_ne_mine hmine
  omega

theorem digPointwise_refl (g v : List Nat) : digPointwise g v v :=
  fun _ _ => ⟨id, fun _ h => h, fun _ _ h => h, id⟩

theorem digPointwise_trans (g v v1 v2 : List Nat) (hlen : v1.length = v.length)
    (h1 : digPointwise g v v1) (h2 : digPointwise g v1 v2) : digPointwise g v v2 := by
  intro i hi
  obtain ⟨a1, b1, c1, d1⟩ := h1 i hi
  obtain ⟨a2, b2, c2, d2⟩ := h2 i (by rw [hlen]; exact hi)
  exact ⟨fun h => a2 (a1 h), fun hg h => b2 hg (b1 hg h), fun hg hm h => c2 hg hm (c1 hg hm h),
    fun h => d1 (d2 h)⟩

theorem visConsistent_set (g v : List Nat) (k val : Nat) (hc : visConsistent g v)
    (hval : val ≠ MSW_UNKNOWN → val ≠ MSW_FLAG → val = lget g k) :
    visConsistent g (v.set k val) := by
  intro i hi h1 h2
  rw [List.length_set] at hi
  by_cases hik : k = i
  · subst hik
    by_cases hk : k < v.length
    · rw [lget_set_eq _ _ _ hk] at h1 h2 ⊢
      exact hval h1 h2
    · exact absurd hi hk
  · rw [lget_set_ne _ _ _ _ hik] at h1 h2 ⊢
    exact hc i hi h1 h2

theorem digPointwise_set (g v : List Nat) (k val : Nat)
    (h1 : lget v k = MSW_CLEAR → val = MSW_CLEAR)
    (h2 : lget g k ≠ MSW_CLEAR → lget v k = lget g k → val = lget g k)
    (h3 : lget g k ≠ MSW_CLEAR → lget g k ≠ MSW_MINE → lget v k = MSW_FLAG →
      val = MSW_FLAG)
    (h4 : val = MSW_FLAG → lget v k = MSW_FLAG) :
    digPointwise g v (v.set k val) := by
  intro i hi
  by_cases hik : k = i
  · subst hik
    rw [lget_set_eq _ _ _ hi]
    exact ⟨h1, h2, h3, h4⟩
  · rw [lget_set_ne _ _ _ _ hik]
    exact ⟨id, fun _ h => h, fun _ _ h => h, id⟩

theorem DigPres.trans (g : List Nat) (game mid gout : smb_mine)
    (h1 : DigPres g game mid) (h2 : DigPres g mid gout) : DigPres g game gout where
  rows_eq := h2.rows_eq.trans h1.rows_eq
  columns_eq := h2.columns_eq.trans h1.columns_eq
  mines_eq := h2.mines_eq.trans h1.mines_eq
  grid_eq := h2.grid_eq
  len_eq := h2.len_eq.trans h1.len_eq
  vcons := h2.vcons
  pt := digPointwise_trans g game.visible mid.visible gout.visible h1.len_eq h1.pt h2.pt

theorem DigPres.refl (g : List Nat) (game : smb_mine) (hg : game.grid = some g)
    (hc : visConsistent g game.visible) : DigPres g game game :=
  ⟨rfl, rfl, rfl, hg, rfl, hc, digPointwise_refl g game.visible⟩

theorem gridCellsOK_no_flag (g : List Nat) (h : gridCellsOK g) :
    ∀ i, lget g i ≠ MSW_FLAG := by
  intro i
  by_cases hi : i < g.length
  · rcases h i hi with hm | hc
    · rw [hm]; decide
    · intro hc2
      rw [hc2] at hc
      unfold MSW_CLEAR MSW_FLAG at hc
      omega
  · unfold lget
    rw [List.getD_eq_default _ _ (Nat.le_of_not_lt hi)]
    decide

/-- The main preservation bundle: any dig (and any neighbor worklist of
digs) on a game whose grid is present and whose visible grid is consistent
preserves the game's shape, the consistency invariant, and all the
pointwise stability facts of `digPointwise`. -/
theorem msw_dig_pres (gen : GenFun) (g : List Nat) (hgF : ∀ i, lget g i ≠ MSW_FLAG) :
    ∀ dfuel : Nat,
      (∀ game row column gout sout, game.grid = some g →
        visConsistent g game.visible →
        msw_dig gen dfuel game row column = some (gout, sout) →
        DigPres g game gout) ∧
      (∀ W game row column gout, game.grid = some g →
        visConsistent g game.visible →
        digStep (msw_dig gen dfuel) W game row column = some gout →
        DigPres g game gout) := by
  intro dfuel
  induction dfuel with
  | zero =>
    constructor
    · intro game row column gout sout hg hc hdig
      exact absurd hdig (by simp [msw_dig])
    · intro W
      induction W with
      | nil =>
        intro game row column gout hg hc hstep
        obtain rfl : game = gout := by
          have := Option.some.inj hstep
          exact this
        exact DigPres.refl g game hg hc
      | cons d rest ihW =>
        intro game row column gout hg hc hstep
        rw [digStep] at hstep
        rw [show msw_dig gen 0 game (row + d.1) (column + d.2) = none from rfl] at hstep
        simp at hstep
  | succ f ih =>
    have hdig : ∀ game row column gout sout, game.grid = some g →
        visConsistent g game.visible →
        msw_dig gen (f + 1) game row column = some (gout, sout) →
        DigPres g game gout := by
      intro game row column gout sout hg hc hdig
      by_cases hb : msw_in_bounds game.rows game.columns row column
      · by_cases hbr1 : lget g (idxN game.columns (row, column)) = MSW_CLEAR ∧
            lget game.visible (idxN game.columns (row, column)) ≠ MSW_CLEAR
        · rw [msw_dig_clear_branch gen f game g row column hg hb hbr1.1 hbr1.2] at hdig
          rcases hstep : digStep (msw_dig gen f) neighborOffsets
              { game with visible := game.visible.set (idxN game.columns (row, column)) MSW_CLEAR }
              row column with _ | game3
          · rw [hstep] at hdig
            exact absurd hdig (by simp)
          · rw [hstep] at hdig
            have h1 : (game3, (1 : Int)) = (gout, sout) := Option.some.inj hdig
            obtain rfl : game3 = gout := congrArg Prod.fst h1
            have hmidcons : visConsistent g
                (game.visible.set (idxN game.columns (row, column)) MSW_CLEAR) :=
              visConsistent_set g game.visible _ MSW_CLEAR hc
                (fun _ _ => hbr1.1.symm)
            have hmid : DigPres g game
                { game with visible := game.visible.set (idxN game.columns (row, column)) MSW_CLEAR } := by
              refine ⟨rfl, rfl, rfl, hg, List.length_set _ _ _, hmidcons, ?_⟩
              apply digPointwise_set
              · intro _; rfl
              · intro hne _; exact absurd hbr1.1 hne
              · intro hne _ _; exact absurd hbr1.1 hne
              · intro hcf; exact absurd hcf (by decide)
            have htail := ih.2 neighborOffsets
              { game with visible := game.visible.set (idxN game.columns (row, column)) MSW_CLEAR }
              row column game3 hg hmidcons hstep
            exact DigPres.trans g game _ game3 hmid htail
        · by_cases hbm : lget g (idxN game.columns (row, column)) = MSW_MINE
          · rw [msw_dig_mine_branch gen f game g row column hg hb hbm] at hdig
            have h1 := Option.some.inj hdig
            obtain rfl : { game with visible := game.visible.set (idxN game.columns (row, column)) MSW_MINE } = gout :=
              congrArg Prod.fst h1
            refine ⟨rfl, rfl, rfl, hg, List.length_set _ _ _, ?_, ?_⟩
            · exact visConsistent_set g game.visible _ MSW_MINE hc (fun _ _ => hbm.symm)
            · apply digPointwise_set
              · intro hvk
                by_cases hk : idxN game.columns (row, column) < game.visible.length
                · have := hc _ hk (by rw [hvk]; decide) (by rw [hvk]; decide)
                  rw [hvk, hbm] at this
                  exact absurd this (by decide)
                · unfold lget at hvk
                  rw [List.getD_eq_default _ _ (Nat.le_of_not_lt hk)] at hvk
                  exact absurd hvk (by decide)
              · intro _ _
                exact hbm.symm
              · intro _ hm2
                exact absurd hbm hm2
              · intro hcf
                exact absurd hcf (by decide)
          · by_cases hbf : lget game.visible (idxN game.columns (row, column)) = MSW_FLAG
            · rw [msw_dig_flag_branch gen f game g row column hg hb hbr1 hbm hbf] at hdig
              have h1 := Option.some.inj hdig
              obtain rfl : game = gout := congrArg Prod.fst h1
              exact DigPres.refl g game hg hc
            · rw [msw_dig_else_branch gen f game g row column hg hb hbr1 hbm hbf] at hdig
              have h1 := Option.some.inj hdig
              obtain rfl : { game with visible := game.visible.set (idxN game.columns (row, column)) (lget g (idxN game.columns (row, column))) } = gout :=
                congrArg Prod.fst h1
              refine ⟨rfl, rfl, rfl, hg, List.length_set _ _ _, ?_, ?_⟩
              · exact visConsistent_set g game.visible _ _ hc (fun _ _ => rfl)
              · apply digPointwise_set
                · intro hvk
                  by_cases hgk : lget g (idxN game.columns (row, column)) = MSW_CLEAR
                  · exact hgk
                  · by_cases hk : idxN game.columns (row, column) < game.visible.length
                    · have := hc _ hk (by rw [hvk]; decide) (by rw [hvk]; decide)
                      rw [hvk] at this
                      exact this.symm
                    · unfold lget at hvk
                      rw [List.getD_eq_default _ _ (Nat.le_of_not_lt hk)] at hvk
                      exact absurd hvk (by decide)
                · intro _ _; rfl
                · intro _ _ hvf
                  exact absurd hvf hbf
                · intro hcf
                  exact absurd hcf (hgF _)
      · rw [msw_dig_oob gen f game row column hb] at hdig
        have h1 := Option.some.inj hdig
        obtain rfl : game = gout := congrArg Prod.fst h1
        exact DigPres.refl g game hg hc
    refine ⟨hdig, ?_⟩
    intro W
    induction W with
    | nil =>
      intro game row column gout hg hc hstep
      obtain rfl : game = gout := Option.some.inj hstep
      exact DigPres.refl g game hg hc
    | cons d rest ihW =>
      intro game row column gout hg hc hstep
      rw [digStep] at hstep
      rcases hd1 : msw_dig gen (f + 1) game (row + d.1) (column + d.2) with _ | p
      · rw [hd1] at hstep
        exact absurd hstep (by simp)
      · rw [hd1] at hstep
        obtain ⟨g1, s1⟩ := p
        have hpre := hdig game (row + d.1) (column + d.2) g1 s1 hg hc hd1
        have htail := ihW g1 row column gout hpre.grid_eq hpre.vcons hstep
        exact DigPres.trans g game g1 gout hpre htail

/-- Claim C7: once a cell's visible value is terminal — `Clear`, a count, or
`DetonatedMine`, all of which equal the cell's true value in a consistent
session — no subsequent dig or flag at any coordinates ever changes that
cell's visible value again. -/
theorem C7_terminal_stable (gen : GenFun) (game : smb_mine) (g : List Nat)
    (p : Int × Int)
    (hg : game.grid = some g)
    (hgok : gridCellsOK g)
    (hcons : visConsistent g game.visible)
    (hvlen : game.visible.length = (game.rows * game.columns).toNat)
    (hbp : msw_in_bounds game.rows game.columns p.1 p.2)
    (hterm : lget game.visible (idxN game.columns p) = MSW_CLEAR ∨
      lget game.visible (idxN game.columns p) = MSW_MINE ∨
      (MSW_CLEAR < lget game.visible (idxN game.columns p) ∧
        lget game.visible (idxN game.columns p) ≤ MSW_CLEAR + 8)) :
    (∀ dfuel row column gout sout,
      msw_dig gen dfuel game row column = some (gout, sout) →
      lget gout.visible (idxN game.columns p) =
        lget game.visible (idxN game.columns p)) ∧
    (∀ r c gout sout, msw_flag game r c = some (gout, sout) →
      lget gout.visible (idxN game.columns p) =
        lget game.visible (idxN game.columns p)) := by
  have hk : idxN game.columns p < game.visible.length := by
    rw [hvlen]; exact idxN_lt game.rows game.columns p hbp
  refine ⟨?_, ?_⟩
  · intro dfuel row column gout sout hdig
    cases dfuel with
    | zero => exact absurd hdig (by simp [msw_dig])
    | succ f =>
      have hpre := ((msw_dig_pres gen g (gridCellsOK_no_flag g hgok)) (f + 1)).1
        game row column gout sout hg hcons hdig
      obtain ⟨p1, p2, p3, p4⟩ := hpre.pt _ hk
      rcases hterm with ht | ht | ht
      · rw [p1 ht, ht]
      · have hveq : lget game.visible (idxN game.columns p) =
            lget g (idxN game.columns p) := by
          apply hcons _ hk
          · rw [ht]; decide
          · rw [ht]; decide
        have hgne : lget g (idxN game.columns p) ≠ MSW_CLEAR := by
          rw [← hveq, ht]; decide
        rw [p2 hgne hveq, ← hveq]
      · have hveq : lget game.visible (idxN game.columns p) =
            lget g (idxN game.columns p) := by
          apply hcons _ hk
          · intro hu
            rw [hu] at ht
            unfold MSW_CLEAR MSW_UNKNOWN at ht
            omega
          · intro hu
            rw [hu] at ht
            unfold MSW_CLEAR MSW_FLAG at ht
            omega
        have hgne : lget g (idxN game.columns p) ≠ MSW_CLEAR := by
          rw [← hveq]
          intro hcc
          rw [hcc] at ht
          omega
        rw [p2 hgne hveq, ← hveq]
  · intro r c gout sout hflag
    unfold msw_flag at hflag
    by_cases hib : 0 ≤ msw_index game.columns r c ∧
        (msw_index game.columns r c).toNat < game.visible.length
    · rw [if_pos hib] at hflag
      by_cases hu : lget game.visible (msw_index game.columns r c).toNat = MSW_UNKNOWN
      · rw [if_pos hu] at hflag
        have h1 := Option.some.inj hflag
        obtain rfl : { game with visible := game.visible.set (msw_index game.columns r c).toNat MSW_FLAG } = gout :=
          congrArg Prod.fst h1
        show lget (game.visible.set (msw_index game.columns r c).toNat MSW_FLAG)
            (idxN game.columns p) = lget game.visible (idxN game.columns p)
        apply lget_set_ne
        intro hkk
        rw [hkk] at hu
        rcases hterm with ht | ht | ht
        · rw [hu] at ht; exact absurd ht (by decide)
        · rw [hu] at ht; exact absurd ht (by decide)
        · rw [hu] at ht
          unfold MSW_CLEAR MSW_UNKNOWN at ht
          omega
      · rw [if_neg hu] at hflag
        have h1 := Option.some.inj hflag
        obtain rfl : game = gout := congrArg Prod.fst h1
        rfl
    · rw [if_neg hib] at hflag
      exact absurd hflag (by simp)

theorem C7_terminal_stable_witness :
    msw_in_bounds 1 3 0 1 ∧
      (∀ dfuel row column gout sout,
        msw_dig (fun _ _ => none) dfuel
          { rows := 1, columns := 3, mines := 1, grid := some [48, 49, 42],
            visible := [48, 49, 35] } row column = some (gout, sout) →
        lget gout.visible (idxN 3 (0, 1)) = lget [48, 49, 35] (idxN 3 (0, 1))) ∧
      (∀ r c gout sout,
        msw_flag
          { rows := 1, columns := 3, mines := 1, grid := some [48, 49, 42],
            visible := [48, 49, 35] } r c = some (gout, sout) →
        lget gout.visible (idxN 3 (0, 1)) = lget [48, 49, 35] (idxN 3 (0, 1))) := by
  refine ⟨by decide, ?_⟩
  exact C7_terminal_stable (fun _ _ => none)
    { rows := 1, columns := 3, mines := 1, grid := some [48, 49, 42],
      visible := [48, 49, 35] } [48, 49, 42] (0, 1) rfl (by decide) (by decide)
    (by decide) (by decide) (by decide)

theorem lget_set_no_new (v : List Nat) (k a : Nat) (ha : a ≠ MSW_MINE) :
    ∀ i, lget (v.set k a) i = MSW_MINE → lget v i = MSW_MINE := by
  intro i h
  by_cases hik : k = i
  · subst hik
    by_cases hk : k < v.length
    · rw [lget_set_eq _ _ _ hk] at h
      exact absurd h ha
    · rwa [set_of_length_le _ _ _ (Nat.le_of_not_lt hk)] at h
  · rwa [lget_set_ne _ _ _ _ hik] at h

/-- If no mine borders any in-bounds clear cell, a dig whose target is not a
mine never takes the detonation branch: no visible cell ever becomes a mine
and the returned status is never the loss `-1` (it is `1` whenever the dig
was in bounds). -/
theorem msw_dig_no_detonation_aux (gen : GenFun) (g : List Nat) :
    ∀ dfuel : Nat,
      (∀ game row column gout sout,
        game.grid = some g →
        noMineNearClear game.rows game.columns g →
        (msw_in_bounds game.rows game.columns row column →
          lget g (idxN game.columns (row, column)) ≠ MSW_MINE) →
        msw_dig gen dfuel game row column = some (gout, sout) →
        gout.rows = game.rows ∧ gout.columns = game.columns ∧ gout.grid = some g ∧
          (msw_in_bounds game.rows game.columns row column → sout = 1) ∧ sout ≠ -1 ∧
          ∀ i, lget gout.visible i = MSW_MINE → lget game.visible i = MSW_MINE) ∧
      (∀ W game row column gout,
        game.grid = some g →
        noMineNearClear game.rows game.columns g →
        (∀ d ∈ W, msw_in_bounds game.rows game.columns (row + d.1) (column + d.2) →
          lget g (idxN game.columns (row + d.1, column + d.2)) ≠ MSW_MINE) →
        digStep (msw_dig gen dfuel) W game row column = some gout →
        gout.rows = game.rows ∧ gout.columns = game.columns ∧ gout.grid = some g ∧
          ∀ i, lget gout.visible i = MSW_MINE → lget game.visible i = MSW_MINE) := by
  intro dfuel
  induction dfuel with
  | zero =>
    constructor
    · intro game row column gout sout _ _ _ hdig
      exact absurd hdig (by simp [msw_dig])
    · intro W
      induction W with
      | nil =>
        intro game row column gout hg _ _ hstep
        obtain rfl : game = gout := Option.some.inj hstep
        exact ⟨rfl, rfl, hg, fun _ h => h⟩
      | cons d rest ihW =>
        intro game row column gout _ _ _ hstep
        rw [digStep] at hstep
        rw [show msw_dig gen 0 game (row + d.1) (column + d.2) = none from rfl] at hstep
        simp at hstep
  | succ f ih =>
    have hdig : ∀ game row column gout sout,
        game.grid = some g →
        noMineNearClear game.rows game.columns g →
        (msw_in_bounds game.rows game.columns row column →
          lget g (idxN game.columns (row, column)) ≠ MSW_MINE) →
        msw_dig gen (f + 1) game row column = some (gout, sout) →
        gout.rows = game.rows ∧ gout.columns = game.columns ∧ gout.grid = some g ∧
          (msw_in_bounds game.rows game.columns row column → sout = 1) ∧ sout ≠ -1 ∧
          ∀ i, lget gout.visible i = MSW_MINE → lget game.visible i = MSW_MINE := by
      intro game row column gout sout hg hnm hE hdig
      by_cases hb : msw_in_bounds game.rows game.columns row column
      · have hEm := hE hb
        by_cases hbr1 : lget g (idxN game.columns (row, column)) = MSW_CLEAR ∧
            lget game.visible (idxN game.columns (row, column)) ≠ MSW_CLEAR
        · rw [msw_dig_clear_branch gen f game g row column hg hb hbr1.1 hbr1.2] at hdig
          rcases hstep : digStep (msw_dig gen f) neighborOffsets
              { game with visible := game.visible.set (idxN game.columns (row, column)) MSW_CLEAR }
              row column with _ | game3
          · rw [hstep] at hdig
            exact absurd hdig (by simp)
          · rw [hstep] at hdig
            have h1 : (game3, (1 : Int)) = (gout, sout) := Option.some.inj hdig
            obtain rfl : game3 = gout := congrArg Prod.fst h1
            obtain rfl : (1 : Int) = sout := congrArg Prod.snd h1
            have hW : ∀ d ∈ neighborOffsets,
                msw_in_bounds game.rows game.columns (row + d.1) (column + d.2) →
                lget g (idxN game.columns (row + d.1, column + d.2)) ≠ MSW_MINE :=
              fun d hd hdb => hnm (row, column) hb hbr1.1 d hd hdb
            obtain ⟨hr3, hc3, hg3, hm3⟩ := ih.2 neighborOffsets
              { game with visible := game.visible.set (idxN game.columns (row, column)) MSW_CLEAR }
              row column game3 hg hnm hW hstep
            refine ⟨hr3, hc3, hg3, fun _ => rfl, by decide, ?_⟩
            intro i hi
            exact lget_set_no_new game.visible _ MSW_CLEAR (by decide) i (hm3 i hi)
        · by_cases hbm : lget g (idxN game.columns (row, column)) = MSW_MINE
          · exact absurd hbm hEm
          · by_cases hbf : lget game.visible (idxN game.columns (row, column)) = MSW_FLAG
            · rw [msw_dig_flag_branch gen f game g row column hg hb hbr1 hbm hbf] at hdig
              have h1 := Option.some.inj hdig
              obtain rfl : game = gout := congrArg Prod.fst h1
              obtain rfl : (1 : Int) = sout := congrArg Prod.snd h1
              exact ⟨rfl, rfl, hg, fun _ => rfl, by decide, fun _ h => h⟩
            · rw [msw_dig_else_branch gen f game g row column hg hb hbr1 hbm hbf] at hdig
              have h1 := Option.some.inj hdig
              obtain rfl : { game with visible := game.visible.set (idxN game.columns (row, column)) (lget g (idxN game.columns (row, column))) } = gout :=
                congrArg Prod.fst h1
              obtain rfl : (1 : Int) = sout := congrArg Prod.snd h1
              exact ⟨rfl, rfl, hg, fun _ => rfl, by decide,
                lget_set_no_new game.visible _ _ hbm⟩
      · rw [msw_dig_oob gen f game row column hb] at hdig
        have h1 := Option.some.inj hdig
        obtain rfl : game = gout := congrArg Prod.fst h1
        obtain rfl : (0 : Int) = sout := congrArg Prod.snd h1
        exact ⟨rfl, rfl, hg, fun hbb => absurd hbb hb, by decide, fun _ h => h⟩
    refine ⟨hdig, ?_⟩
    intro W
    induction W with
    | nil =>
      intro game row column gout hg _ _ hstep
      obtain rfl : game = gout := Option.some.inj hstep
      exact ⟨rfl, rfl, hg, fun _ h => h⟩
    | cons d rest ihW =>
      intro game row column gout hg hnm hW hstep
      rw [digStep] at hstep
      rcases hd1 : msw_dig gen (f + 1) game (row + d.1) (column + d.2) with _ | p
      · rw [hd1] at hstep
        exact absurd hstep (by simp)
      · rw [hd1] at hstep
        obtain ⟨g1, s1⟩ := p
        obtain ⟨hr1, hc1, hg1, _, _, hm1⟩ := hdig game (row + d.1) (column + d.2) g1 s1
          hg hnm (fun hdb => hW d (List.mem_cons_self d rest) hdb) hd1
        have hnm1 : noMineNearClear g1.rows g1.columns g := by
          rw [hr1, hc1]; exact hnm
        have hW1 : ∀ e ∈ rest, msw_in_bounds g1.rows g1.columns (row + e.1) (column + e.2) →
            lget g (idxN g1.columns (row + e.1, column + e.2)) ≠ MSW_MINE := by
          rw [hr1, hc1]
          exact fun e he => hW e (List.mem_cons_of_mem d he)
        obtain ⟨hr2, hc2, hg2, hm2⟩ := ihW g1 row column gout hg1 hnm1 hW1 hstep
        exact ⟨hr2.trans hr1, hc2.trans hc1, hg2, fun i hi => hm1 i (hm2 i hi)⟩

/-- Claim C10: if the true grid's counts are consistent with its mines, then
digging an in-bounds cell whose true value is clear and whose visible value
is not flagged never reaches the detonation branch anywhere in the flood
fill: no visible cell ever becomes a (detonated) mine, and the outcome is
`1`, never the loss `-1`. -/
theorem C10_clear_dig_no_loss (gen : GenFun) (dfuel : Nat) (game : smb_mine)
    (g : List Nat) (row column : Int)
    (hg : game.grid = some g)
    (hcounts : countsOK game.rows game.columns g)
    (hb : msw_in_bounds game.rows game.columns row column)
    (hclear : lget g (idxN game.columns (row, column)) = MSW_CLEAR)
    (hnf : lget game.visible (idxN game.columns (row, column)) ≠ MSW_FLAG)
    (gout : smb_mine) (sout : Int)
    (hdig : msw_dig gen dfuel game row column = some (gout, sout)) :
    sout = 1 ∧
      ∀ i, lget gout.visible i = MSW_MINE → lget game.visible i = MSW_MINE := by
  have hnm := noMineNearClear_of_countsOK game.rows game.columns g hcounts
  obtain ⟨_, _, _, hs1, _, hmines⟩ := (msw_dig_no_detonation_aux gen g dfuel).1
    game row column gout sout hg hnm
    (fun _ => by rw [hclear]; exact clear_ne_mine) hdig
  exact ⟨hs1 hb, hmines⟩

theorem C10_clear_dig_no_loss_witness :
    msw_in_bounds 2 2 0 0 ∧
      ((1 : Int) = 1 ∧ ∀ i,
        lget [48, 48, 48, 48] i = MSW_MINE → lget [35, 35, 35, 35] i = MSW_MINE) :=
  ⟨by decide, C10_clear_dig_no_loss (fun _ _ => none) 10
    { rows := 2, columns := 2, mines := 0, grid := some [48, 48, 48, 48],
      visible := [35, 35, 35, 35] }
    [48, 48, 48, 48] 0 0 rfl
    (countsOK_of_all_clear 2 2 [48, 48, 48, 48] (by decide) (by decide))
    (by decide) (by decide) (by decide)
    { rows := 2, columns := 2, mines := 0, grid := some [48, 48, 48, 48],
      visible := [48, 48, 48, 48] }
    1 (by decide)⟩

/-! ## Flood-fill reachability and the flood-fill claim C4 -/

theorem floodClosed_of_no_visible_clear (rows columns : Int) (g v : List Nat)
    (h : ∀ i, i < v.length → lget v i ≠ MSW_CLEAR) :
    floodClosed rows columns g v := by
  intro p hp hclear
  by_cases hk : idxN columns p < v.length
  · exact absurd hclear (h _ hk)
  · unfold lget at hclear
    rw [List.getD_eq_default _ _ (Nat.le_of_not_lt hk)] at hclear
    exact absurd hclear (by decide)

theorem DigReach_to_GridReach (rows columns : Int) (g v : List Nat)
    (p q : Int × Int) (h : DigReach rows columns g v p q) :
    GridReach rows columns g p q := by
  induction h with
  | refl hb hc _ => exact GridReach.refl _ hb hc
  | step _ _ _ hb hc _ hadj ih => exact GridReach.step _ _ _ ih hb hc hadj

/-- Shrinking of dig-reachability as the visibly clear set grows. -/
theorem DigReach_mono (rows columns : Int) (g v v' : List Nat)
    (hmono : ∀ z : Int × Int, msw_in_bounds rows columns z.1 z.2 →
      lget v (idxN columns z) = MSW_CLEAR → lget v' (idxN columns z) = MSW_CLEAR)
    (p q : Int × Int) (h : DigReach rows columns g v' p q) :
    DigReach rows columns g v p q := by
  induction h with
  | refl hb hc hv =>
    exact DigReach.refl _ hb hc (fun hcc => hv (hmono _ hb hcc))
  | step _ _ _ hb hc hv hadj ih =>
    exact DigReach.step _ _ _ ih hb hc (fun hcc => hv (hmono _ hb hcc)) hadj

theorem countNonClear_set_clear (v : List Nat) (k : Nat) (hk : k < v.length)
    (hv : lget v k ≠ MSW_CLEAR) :
    countNonClear (v.set k MSW_CLEAR) + 1 = countNonClear v := by
  unfold countNonClear
  rw [List.length_set]
  have hset : (Finset.range v.length).filter
      (fun i => lget (v.set k MSW_CLEAR) i ≠ MSW_CLEAR) =
      ((Finset.range v.length).filter (fun i => lget v i ≠ MSW_CLEAR)).erase k := by
    ext j
    simp only [Finset.mem_filter, Finset.mem_erase, Finset.mem_range]
    constructor
    · intro ⟨hj, hval⟩
      by_cases hjk : k = j
      · subst hjk
        rw [lget_set_eq _ _ _ hk] at hval
        exact absurd rfl hval
      · exact ⟨fun hc => hjk hc.symm, hj, by rwa [lget_set_ne _ _ _ _ hjk] at hval⟩
    · intro ⟨hjk, hj, hval⟩
      refine ⟨hj, ?_⟩
      rwa [lget_set_ne _ _ _ _ (fun hc => hjk hc.symm)]
  rw [hset, Finset.card_erase_of_mem]
  · have hpos : 0 < ((Finset.range v.length).filter (fun i => lget v i ≠ MSW_CLEAR)).card :=
      Finset.card_pos.mpr ⟨k, by simp [Finset.mem_filter, hk, hv]⟩
    omega
  · simp [Finset.mem_filter, hk, hv]

theorem countNonClear_le_of_pointwise (v v' : List Nat) (hlen : v'.length = v.length)
    (h : ∀ i, i < v.length → lget v i = MSW_CLEAR → lget v' i = MSW_CLEAR) :
    countNonClear v' ≤ countNonClear v := by
  unfold countNonClear
  rw [hlen]
  apply Finset.card_le_card
  intro j hj
  simp only [Finset.mem_filter, Finset.mem_range] at hj ⊢
  exact ⟨hj.1, fun hc => hj.2 (h j hj.1 hc)⟩

/-- Termination of the flood fill: recursion depth `countNonClear` plus one
is always enough fuel, because each recursive layer has freshly turned one
more cell visibly clear. -/
theorem msw_dig_suff (gen : GenFun) (g : List Nat) (hgF : ∀ i, lget g i ≠ MSW_FLAG) :
    ∀ dfuel : Nat,
      (∀ game row column, game.grid = some g → visConsistent g game.visible →
        game.visible.length = (game.rows * game.columns).toNat →
        countNonClear game.visible < dfuel →
        ∃ out, msw_dig gen dfuel game row column = some out) ∧
      (∀ W game row column, game.grid = some g → visConsistent g game.visible →
        game.visible.length = (game.rows * game.columns).toNat →
        countNonClear game.visible < dfuel →
        ∃ gout, digStep (msw_dig gen dfuel) W game row column = some gout) := by
  intro dfuel
  induction dfuel with
  | zero =>
    constructor
    · intro game row column _ _ _ hcount
      exact absurd hcount (by omega)
    · intro W game row column _ _ _ hcount
      exact absurd hcount (by omega)
  | succ f ih =>
    have hdig : ∀ game row column, game.grid = some g → visConsistent g game.visible →
        game.visible.length = (game.rows * game.columns).toNat →
        countNonClear game.visible < f + 1 →
        ∃ out, msw_dig gen (f + 1) game row column = some out := by
      intro game row column hg hc hvlen hcount
      by_cases hb : msw_in_bounds game.rows game.columns row column
      · by_cases hbr1 : lget g (idxN game.columns (row, column)) = MSW_CLEAR ∧
            lget game.visible (idxN game.columns (row, column)) ≠ MSW_CLEAR
        · have hk : idxN game.columns (row, column) < game.visible.length := by
            rw [hvlen]
            exact idxN_lt game.rows game.columns (row, column) hb
          have hcnt := countNonClear_set_clear game.visible _ hk hbr1.2
          have hmidcons : visConsistent g
              (game.visible.set (idxN game.columns (row, column)) MSW_CLEAR) :=
            visConsistent_set g game.visible _ MSW_CLEAR hc (fun _ _ => hbr1.1.symm)
          obtain ⟨game3, hstep⟩ := ih.2 neighborOffsets
            { game with visible := game.visible.set (idxN game.columns (row, column)) MSW_CLEAR }
            row column hg hmidcons (by simpa using hvlen)
            (by
              show countNonClear (game.visible.set (idxN game.columns (row, column)) MSW_CLEAR) < f
              omega)
          refine ⟨(game3, 1), ?_⟩
          rw [msw_dig_clear_branch gen f game g row column hg hb hbr1.1 hbr1.2, hstep]
          rfl
        · by_cases hbm : lget g (idxN game.columns (row, column)) = MSW_MINE
          · exact ⟨_, msw_dig_mine_branch gen f game g row column hg hb hbm⟩
          · by_cases hbf : lget game.visible (idxN game.columns (row, column)) = MSW_FLAG
            · exact ⟨_, msw_dig_flag_branch gen f game g row column hg hb hbr1 hbm hbf⟩
            · exact ⟨_, msw_dig_else_branch gen f game g row column hg hb hbr1 hbm hbf⟩
      · exact ⟨_, msw_dig_oob gen f game row column hb⟩
    refine ⟨hdig, ?_⟩
    intro W
    induction W with
    | nil =>
      intro game row column _ _ _ _
      exact ⟨game, rfl⟩
    | cons d rest ihW =>
      intro game row column hg hc hvlen hcount
      obtain ⟨⟨g1, s1⟩, hd1⟩ := hdig game (row + d.1) (column + d.2) hg hc hvlen hcount
      have hpre := ((msw_dig_pres gen g hgF) (f + 1)).1 game (row + d.1) (column + d.2)
        g1 s1 hg hc hd1
      have hlen1 : g1.visible.length = (g1.rows * g1.columns).toNat := by
        rw [hpre.len_eq, hpre.rows_eq, hpre.columns_eq]
        exact hvlen
      have hcount1 : countNonClear g1.visible < f + 1 := by
        have hle := countNonClear_le_of_pointwise game.visible g1.visible hpre.len_eq
          (fun i hi hcc => ((hpre.pt i hi).1) hcc)
        omega
      obtain ⟨gout, hrest⟩ := ihW g1 row column hpre.grid_eq hpre.vcons hlen1 hcount1
      refine ⟨gout, ?_⟩
      rw [digStep, hd1]
      show digStep (msw_dig gen (f + 1)) rest g1 row column = some gout
      exact hrest

theorem processedAt_stable (g v vout : List Nat) (k : Nat) (hk : k < v.length)
    (hnm : lget g k ≠ MSW_MINE) (hpt : digPointwise g v vout)
    (hp : processedAt g v k) : processedAt g vout k := by
  obtain ⟨p1, p2, p3, _⟩ := hpt k hk
  constructor
  · intro hgc
    exact p1 (hp.1 hgc)
  · intro hgc
    rcases hp.2 hgc with hv | hv
    · exact Or.inl (p2 hgc hv)
    · exact Or.inr (p3 hgc hnm hv)

theorem set_fresh (v : List Nat) (k a : Nat) (j : Nat)
    (h1 : lget (v.set k a) j = MSW_CLEAR) (h2 : lget v j ≠ MSW_CLEAR) :
    j = k ∧ a = MSW_CLEAR := by
  by_cases hk : k = j
  · subst hk
    by_cases hkl : k < v.length
    · rw [lget_set_eq _ _ _ hkl] at h1
      exact ⟨rfl, h1⟩
    · rw [set_of_length_le _ _ _ (Nat.le_of_not_lt hkl)] at h1
      exact absurd h1 h2
  · rw [lget_set_ne _ _ _ _ hk] at h1
    exact absurd h1 h2

/-- A dig at an in-bounds clear true cell leaves that cell visibly clear. -/
theorem msw_dig_clears_target (gen : GenFun) (f : Nat) (game : smb_mine) (g : List Nat)
    (row column : Int) (gout : smb_mine) (sout : Int)
    (hg : game.grid = some g) (hc : visConsistent g game.visible)
    (hgF : ∀ i, lget g i ≠ MSW_FLAG)
    (hvlen : game.visible.length = (game.rows * game.columns).toNat)
    (hb : msw_in_bounds game.rows game.columns row column)
    (hclear : lget g (idxN game.columns (row, column)) = MSW_CLEAR)
    (hdig : msw_dig gen (f + 1) game row column = some (gout, sout)) :
    lget gout.visible (idxN game.columns (row, column)) = MSW_CLEAR := by
  have hk : idxN game.columns (row, column) < game.visible.length := by
    rw [hvlen]
    exact idxN_lt game.rows game.columns (row, column) hb
  by_cases hbr1 : lget game.visible (idxN game.columns (row, column)) ≠ MSW_CLEAR
  · rw [msw_dig_clear_branch gen f game g row column hg hb hclear hbr1] at hdig
    rcases hstep : digStep (msw_dig gen f) neighborOffsets
        { game with visible := game.visible.set (idxN game.columns (row, column)) MSW_CLEAR }
        row column with _ | game3
    · rw [hstep] at hdig
      exact absurd hdig (by simp)
    · rw [hstep] at hdig
      have h1 : (game3, (1 : Int)) = (gout, sout) := Option.some.inj hdig
      obtain rfl : game3 = gout := congrArg Prod.fst h1
      have hmidcons : visConsistent g
          (game.visible.set (idxN game.columns (row, column)) MSW_CLEAR) :=
        visConsistent_set g game.visible _ MSW_CLEAR hc (fun _ _ => hclear.symm)
      have hpres := ((msw_dig_pres gen g hgF) f).2 neighborOffsets
        { game with visible := game.visible.set (idxN game.columns (row, column)) MSW_CLEAR }
        row column game3 hg hmidcons hstep
      have hset : lget (game.visible.set (idxN game.columns (row, column)) MSW_CLEAR)
          (idxN game.columns (row, column)) = MSW_CLEAR := lget_set_eq _ _ _ hk
      exact (hpres.pt _ (by rw [List.length_set]; exact hk)).1 hset
  · push_neg at hbr1
    have h1 : ¬ (lget g (idxN game.columns (row, column)) = MSW_CLEAR ∧
        lget game.visible (idxN game.columns (row, column)) ≠ MSW_CLEAR) :=
      fun hh => hh.2 hbr1
    have hm : lget g (idxN game.columns (row, column)) ≠ MSW_MINE := by
      rw [hclear]
      exact clear_ne_mine
    have hf : lget game.visible (idxN game.columns (row, column)) ≠ MSW_FLAG := by
      rw [hbr1]
      decide
    rw [msw_dig_else_branch gen f game g row column hg hb h1 hm hf] at hdig
    have h2 := Option.some.inj hdig
    obtain rfl : { game with visible := game.visible.set (idxN game.columns (row, column)) (lget g (idxN game.columns (row, column))) } = gout :=
      congrArg Prod.fst h2
    show lget (game.visible.set (idxN game.columns (row, column))
        (lget g (idxN game.columns (row, column)))) (idxN game.columns (row, column)) = MSW_CLEAR
    rw [lget_set_eq _ _ _ hk, hclear]

/-- A dig at an in-bounds non-mine cell leaves that cell processed. -/
theorem msw_dig_processes_target (gen : GenFun) (f : Nat) (game : smb_mine) (g : List Nat)
    (row column : Int) (gout : smb_mine) (sout : Int)
    (hg : game.grid = some g) (hc : visConsistent g game.visible)
    (hgF : ∀ i, lget g i ≠ MSW_FLAG)
    (hvlen : game.visible.length = (game.rows * game.columns).toNat)
    (hb : msw_in_bounds game.rows game.columns row column)
    (hnm : lget g (idxN game.columns (row, column)) ≠ MSW_MINE)
    (hdig : msw_dig gen (f + 1) game row column = some (gout, sout)) :
    processedAt g gout.visible (idxN game.columns (row, column)) := by
  have hk : idxN game.columns (row, column) < game.visible.length := by
    rw [hvlen]
    exact idxN_lt game.rows game.columns (row, column) hb
  by_cases hclear : lget g (idxN game.columns (row, column)) = MSW_CLEAR
  · refine ⟨fun _ => ?_, fun hgc => absurd hclear hgc⟩
    exact msw_dig_clears_target gen f game g row column gout sout hg hc hgF hvlen hb
      hclear hdig
  · have h1 : ¬ (lget g (idxN game.columns (row, column)) = MSW_CLEAR ∧
        lget game.visible (idxN game.columns (row, column)) ≠ MSW_CLEAR) :=
      fun hh => hclear hh.1
    by_cases hbf : lget game.visible (idxN game.columns (row, column)) = MSW_FLAG
    · rw [msw_dig_flag_branch gen f game g row column hg hb h1 hnm hbf] at hdig
      have h2 := Option.some.inj hdig
      obtain rfl : game = gout := congrArg Prod.fst h2
      exact ⟨fun hgc => absurd hgc hclear, fun _ => Or.inr hbf⟩
    · rw [msw_dig_else_branch gen f game g row column hg hb h1 hnm hbf] at hdig
      have h2 := Option.some.inj hdig
      obtain rfl : { game with visible := game.visible.set (idxN game.columns (row, column)) (lget g (idxN game.columns (row, column))) } = gout :=
        congrArg Prod.fst h2
      refine ⟨fun hgc => absurd hgc hclear, fun _ => Or.inl ?_⟩
      show lget (game.visible.set (idxN game.columns (row, column))
          (lget g (idxN game.columns (row, column)))) (idxN game.columns (row, column)) =
        lget g (idxN game.columns (row, column))
      rw [lget_set_eq _ _ _ hk]

/-- Worklist postcondition: after the neighbor loop, every in-bounds
non-mine worklist cell is processed. -/
theorem digStep_processes (gen : GenFun) (g : List Nat) (hgF : ∀ i, lget g i ≠ MSW_FLAG)
    (f : Nat) :
    ∀ (W : List (Int × Int)) (game : smb_mine) (row column : Int) (gout : smb_mine),
      game.grid = some g → visConsistent g game.visible →
      game.visible.length = (game.rows * game.columns).toNat →
      digStep (msw_dig gen f) W game row column = some gout →
      ∀ d ∈ W, msw_in_bounds game.rows game.columns (row + d.1) (column + d.2) →
        lget g (idxN game.columns (row + d.1, column + d.2)) ≠ MSW_MINE →
        processedAt g gout.visible (idxN game.columns (row + d.1, column + d.2)) := by
  intro W
  induction W with
  | nil =>
    intro game row column gout _ _ _ _ d hd
    exact absurd hd (List.not_mem_nil d)
  | cons e rest ihW =>
    intro game row column gout hg hc hvlen hstep d hd hdb hdm
    cases f with
    | zero =>
      rw [digStep] at hstep
      rw [show msw_dig gen 0 game (row + e.1) (column + e.2) = none from rfl] at hstep
      simp at hstep
    | succ f' =>
      rw [digStep] at hstep
      rcases hd1 : msw_dig gen (f' + 1) game (row + e.1) (column + e.2) with _ | p
      · rw [hd1] at hstep
        exact absurd hstep (by simp)
      · rw [hd1] at hstep
        obtain ⟨g1, s1⟩ := p
        have hpre := ((msw_dig_pres gen g hgF) (f' + 1)).1 game (row + e.1) (column + e.2)
          g1 s1 hg hc hd1
        have hvlen1 : g1.visible.length = (g1.rows * g1.columns).toNat := by
          rw [hpre.len_eq, hpre.rows_eq, hpre.columns_eq]
          exact hvlen
        rcases List.mem_cons.mp hd with rfl | hdrest
        · -- the head cell itself: processed by its dig, then stable
          have hhead := msw_dig_processes_target gen f' game g (row + d.1) (column + d.2)
            g1 s1 hg hc hgF hvlen hdb hdm hd1
          have hpres2 := ((msw_dig_pres gen g hgF) (f' + 1)).2 rest g1 row column gout
            hpre.grid_eq hpre.vcons hstep
          have hk1 : idxN game.columns (row + d.1, column + d.2) < g1.visible.length := by
            rw [hpre.len_eq, hvlen]
            exact idxN_lt game.rows game.columns _ hdb
          exact processedAt_stable g g1.visible gout.visible _ hk1 hdm hpres2.pt hhead
        · -- a later worklist cell: by the tail induction on the new state
          have hres := ihW g1 row column gout hpre.grid_eq hpre.vcons hvlen1 hstep d hdrest
          rw [hpre.rows_eq, hpre.columns_eq] at hres
          exact hres hdb hdm

/-- Every cell freshly turned visibly clear by a dig has all its in-bounds
neighbors processed on exit: the flood fill never abandons a frontier. -/
theorem msw_dig_fresh (gen : GenFun) (g : List Nat) (hgF : ∀ i, lget g i ≠ MSW_FLAG) :
    ∀ dfuel : Nat,
      (∀ game row column gout sout,
        game.grid = some g → visConsistent g game.visible →
        game.visible.length = (game.rows * game.columns).toNat →
        noMineNearClear game.rows game.columns g →
        msw_dig gen dfuel game row column = some (gout, sout) →
        ∀ z : Int × Int, msw_in_bounds game.rows game.columns z.1 z.2 →
          lget gout.visible (idxN game.columns z) = MSW_CLEAR →
          lget game.visible (idxN game.columns z) ≠ MSW_CLEAR →
          ∀ d ∈ neighborOffsets,
            msw_in_bounds game.rows game.columns (z.1 + d.1) (z.2 + d.2) →
            processedAt g gout.visible (idxN game.columns (z.1 + d.1, z.2 + d.2))) ∧
      (∀ (W : List (Int × Int)) game row column gout,
        game.grid = some g → visConsistent g game.visible →
        game.visible.length = (game.rows * game.columns).toNat →
        noMineNearClear game.rows game.columns g →
        digStep (msw_dig gen dfuel) W game row column = some gout →
        ∀ z : Int × Int, msw_in_bounds game.rows game.columns z.1 z.2 →
          lget gout.visible (idxN game.columns z) = MSW_CLEAR →
          lget game.visible (idxN game.columns z) ≠ MSW_CLEAR →
          ∀ d ∈ neighborOffsets,
            msw_in_bounds game.rows game.columns (z.1 + d.1) (z.2 + d.2) →
            processedAt g gout.visible (idxN game.columns (z.1 + d.1, z.2 + d.2))) := by
  intro dfuel
  induction dfuel with
  | zero =>
    constructor
    · intro game row column gout sout _ _ _ _ hdig
      exact absurd hdig (by rw [show msw_dig gen 0 game row column = none from rfl]; simp)
    · intro W
      cases W with
      | nil =>
        intro game row column gout _ _ _ _ hstep z _ hz' hz
        rw [digStep] at hstep
        obtain rfl : game = gout := Option.some.inj hstep
        exact absurd hz' hz
      | cons e rest =>
        intro game row column gout _ _ _ _ hstep
        rw [digStep] at hstep
        rw [show msw_dig gen 0 game (row + e.1) (column + e.2) = none from rfl] at hstep
        simp at hstep
  | succ f ih =>
    have hdigpart : ∀ game row column gout sout,
        game.grid = some g → visConsistent g game.visible →
        game.visible.length = (game.rows * game.columns).toNat →
        noMineNearClear game.rows game.columns g →
        msw_dig gen (f + 1) game row column = some (gout, sout) →
        ∀ z : Int × Int, msw_in_bounds game.rows game.columns z.1 z.2 →
          lget gout.visible (idxN game.columns z) = MSW_CLEAR →
          lget game.visible (idxN game.columns z) ≠ MSW_CLEAR →
          ∀ d ∈ neighborOffsets,
            msw_in_bounds game.rows game.columns (z.1 + d.1) (z.2 + d.2) →
            processedAt g gout.visible (idxN game.columns (z.1 + d.1, z.2 + d.2)) := by
      intro game row column gout sout hg hc hvlen hnm hdig z hzb hz' hz d hd hdb
      by_cases hb : msw_in_bounds game.rows game.columns row column
      · have hk : idxN game.columns (row, column) < game.visible.length := by
          rw [hvlen]
          exact idxN_lt game.rows game.columns (row, column) hb
        by_cases hgc : lget g (idxN game.columns (row, column)) = MSW_CLEAR
        · by_cases hbv : lget game.visible (idxN game.columns (row, column)) = MSW_CLEAR
          · -- already clear: final reveal branch rewrites the same value
            have h1 : ¬ (lget g (idxN game.columns (row, column)) = MSW_CLEAR ∧
                lget game.visible (idxN game.columns (row, column)) ≠ MSW_CLEAR) :=
              fun hh => hh.2 hbv
            have hm : lget g (idxN game.columns (row, column)) ≠ MSW_MINE := by
              rw [hgc]; exact clear_ne_mine
            have hf : lget game.visible (idxN game.columns (row, column)) ≠ MSW_FLAG := by
              rw [hbv]; decide
            rw [msw_dig_else_branch gen f game g row column hg hb h1 hm hf] at hdig
            have h2 := Option.some.inj hdig
            obtain rfl : { game with visible := game.visible.set (idxN game.columns (row, column)) (lget g (idxN game.columns (row, column))) } = gout :=
              congrArg Prod.fst h2
            have hz'2 : lget (game.visible.set (idxN game.columns (row, column))
                (lget g (idxN game.columns (row, column)))) (idxN game.columns z) =
                MSW_CLEAR := hz'
            rcases set_fresh game.visible _ _ _ hz'2 hz with ⟨heq, _⟩
            have hzeq : z = (row, column) :=
              idxN_coord_inj game.rows game.columns z (row, column) hzb hb heq
            rw [hzeq] at hz
            exact absurd hbv hz
          · -- flood-fill branch
            rw [msw_dig_clear_branch gen f game g row column hg hb hgc hbv] at hdig
            rcases hstep : digStep (msw_dig gen f) neighborOffsets
                { game with visible := game.visible.set (idxN game.columns (row, column)) MSW_CLEAR }
                row column with _ | game3
            · rw [hstep] at hdig
              exact absurd hdig (by simp)
            · rw [hstep] at hdig
              obtain rfl : game3 = gout :=
                congrArg Prod.fst (Option.some.inj hdig)
              have hc2 : visConsistent g
                  (game.visible.set (idxN game.columns (row, column)) MSW_CLEAR) :=
                visConsistent_set g game.visible _ MSW_CLEAR hc (fun _ _ => hgc.symm)
              have hvlen2 : (game.visible.set (idxN game.columns (row, column))
                  MSW_CLEAR).length = (game.rows * game.columns).toNat := by
                rw [List.length_set]; exact hvlen
              by_cases hza : lget (game.visible.set (idxN game.columns (row, column))
                  MSW_CLEAR) (idxN game.columns z) = MSW_CLEAR
              · -- the fresh cell is the dug cell itself
                rcases set_fresh game.visible _ _ _ hza hz with ⟨heq, _⟩
                have hzeq : z = (row, column) :=
                  idxN_coord_inj game.rows game.columns z (row, column) hzb hb heq
                subst hzeq
                have hdm : lget g
                    (idxN game.columns (row + d.1, column + d.2)) ≠ MSW_MINE :=
                  hnm (row, column) hzb hgc d hd hdb
                exact digStep_processes gen g hgF f neighborOffsets
                  { game with visible := game.visible.set (idxN game.columns (row, column)) MSW_CLEAR }
                  row column game3 hg hc2 hvlen2 hstep d hd hdb hdm
              · -- the fresh cell appeared during the neighbor loop
                exact (ih.2) neighborOffsets
                  { game with visible := game.visible.set (idxN game.columns (row, column)) MSW_CLEAR }
                  row column game3 hg hc2 hvlen2 hnm hstep z hzb hz' hza d hd hdb
        · have h1 : ¬ (lget g (idxN game.columns (row, column)) = MSW_CLEAR ∧
              lget game.visible (idxN game.columns (row, column)) ≠ MSW_CLEAR) :=
            fun hh => hgc hh.1
          by_cases hgm : lget g (idxN game.columns (row, column)) = MSW_MINE
          · rw [msw_dig_mine_branch gen f game g row column hg hb hgm] at hdig
            have h2 := Option.some.inj hdig
            obtain rfl : { game with visible := game.visible.set (idxN game.columns (row, column)) MSW_MINE } = gout :=
              congrArg Prod.fst h2
            have hz'2 : lget (game.visible.set (idxN game.columns (row, column))
                MSW_MINE) (idxN game.columns z) = MSW_CLEAR := hz'
            rcases set_fresh game.visible _ _ _ hz'2 hz with ⟨_, hbad⟩
            exact absurd hbad mine_ne_clear
          · by_cases hbf : lget game.visible (idxN game.columns (row, column)) = MSW_FLAG
            · rw [msw_dig_flag_branch gen f game g row column hg hb h1 hgm hbf] at hdig
              obtain rfl : game = gout := congrArg Prod.fst (Option.some.inj hdig)
              exact absurd hz' hz
            · rw [msw_dig_else_branch gen f game g row column hg hb h1 hgm hbf] at hdig
              have h2 := Option.some.inj hdig
              obtain rfl : { game with visible := game.visible.set (idxN game.columns (row, column)) (lget g (idxN game.columns (row, column))) } = gout :=
                congrArg Prod.fst h2
              have hz'2 : lget (game.visible.set (idxN game.columns (row, column))
                  (lget g (idxN game.columns (row, column)))) (idxN game.columns z) =
                  MSW_CLEAR := hz'
              rcases set_fresh game.visible _ _ _ hz'2 hz with ⟨_, hbad⟩
              exact absurd hbad hgc
      · rw [msw_dig_oob gen f game row column hb] at hdig
        obtain rfl : game = gout := congrArg Prod.fst (Option.some.inj hdig)
        exact absurd hz' hz
    refine ⟨hdigpart, ?_⟩
    intro W
    induction W with
    | nil =>
      intro game row column gout _ _ _ _ hstep z _ hz' hz
      rw [digStep] at hstep
      obtain rfl : game = gout := Option.some.inj hstep
      exact absurd hz' hz
    | cons e rest ihW =>
      intro game row column gout hg hc hvlen hnm hstep z hzb hz' hz d hd hdb
      rw [digStep] at hstep
      rcases hd1 : msw_dig gen (f + 1) game (row + e.1) (column + e.2) with _ | p
      · rw [hd1] at hstep
        exact absurd hstep (by simp)
      · rw [hd1] at hstep
        obtain ⟨g1, s1⟩ := p
        have hpre := ((msw_dig_pres gen g hgF) (f + 1)).1 game (row + e.1) (column + e.2)
          g1 s1 hg hc hd1
        have hrowe : g1.rows = game.rows := hpre.rows_eq
        have hcole : g1.columns = game.columns := hpre.columns_eq
        have hvlen1 : g1.visible.length = (g1.rows * g1.columns).toNat := by
          rw [hpre.len_eq, hrowe, hcole]; exact hvlen
        have hnm1 : noMineNearClear g1.rows g1.columns g := by
          rw [hrowe, hcole]; exact hnm
        by_cases hza : lget g1.visible (idxN game.columns z) = MSW_CLEAR
        · -- fresh already after the head dig: process neighbors, then stability
          have hhead := hdigpart game (row + e.1) (column + e.2) g1 s1 hg hc hvlen hnm
            hd1 z hzb hza hz d hd hdb
          have hpres2 := ((msw_dig_pres gen g hgF) (f + 1)).2 rest g1 row column gout
            hpre.grid_eq hpre.vcons hstep
          have hlt : idxN game.columns z < g1.visible.length := by
            rw [hpre.len_eq, hvlen]
            exact idxN_lt game.rows game.columns z hzb
          have hgz : lget g (idxN game.columns z) = MSW_CLEAR := by
            have h3 := hpre.vcons _ hlt (by rw [hza]; decide) (by rw [hza]; decide)
            rw [hza] at h3
            exact h3.symm
          have hk2 : idxN game.columns (z.1 + d.1, z.2 + d.2) < g1.visible.length := by
            rw [hpre.len_eq, hvlen]
            exact idxN_lt game.rows game.columns _ hdb
          have hnmt : lget g (idxN game.columns (z.1 + d.1, z.2 + d.2)) ≠ MSW_MINE :=
            hnm z hzb hgz d hd hdb
          exact processedAt_stable g g1.visible gout.visible _ hk2 hnmt hpres2.pt hhead
        · -- fresh only later: tail induction on the post-head state
          have hres := ihW g1 row column gout hpre.grid_eq hpre.vcons hvlen1 hnm1 hstep z
            (by rw [hrowe, hcole]; exact hzb) (by rw [hcole]; exact hz')
            (by rw [hcole]; exact hza) d hd (by rw [hrowe, hcole]; exact hdb)
          rw [hcole] at hres
          exact hres

theorem lget_set_clear_ne_clear (v : List Nat) (k j : Nat)
    (h : lget (v.set k MSW_CLEAR) j ≠ MSW_CLEAR) : lget v j ≠ MSW_CLEAR := by
  intro hc
  apply h
  by_cases hjk : k = j
  · subst hjk
    by_cases hkl : k < v.length
    · exact lget_set_eq _ _ _ hkl
    · rw [set_of_length_le _ _ _ (Nat.le_of_not_lt hkl)]; exact hc
  · rw [lget_set_ne _ _ _ _ hjk]; exact hc

/-- A dig-reachability path in the state after clearing the dug cell `p`
extends to a path from `p` itself in the original state, provided the path
root is one of `p`'s neighbors. -/
theorem DigReach_prepend (rows columns : Int) (g v : List Nat) (p n z : Int × Int)
    (hbp : msw_in_bounds rows columns p.1 p.2)
    (hcp : lget g (idxN columns p) = MSW_CLEAR)
    (hvp : lget v (idxN columns p) ≠ MSW_CLEAR)
    (hadjn : (n.1 - p.1, n.2 - p.2) ∈ neighborOffsets)
    (h : DigReach rows columns g (v.set (idxN columns p) MSW_CLEAR) n z) :
    DigReach rows columns g v p z := by
  induction h with
  | refl hb hc hv =>
    exact DigReach.step p p _ (DigReach.refl p hbp hcp hvp) hb hc
      (lget_set_clear_ne_clear v _ _ hv) hadjn
  | step _ _ _ hb hc hv hadj ih =>
    exact DigReach.step _ _ _ ih hb hc (lget_set_clear_ne_clear v _ _ hv) hadj

/-- Frame property: a cell distinct from the dug cell and not adjacent to
any freshly reachable clear cell keeps its visible value. -/
theorem msw_dig_frame (gen : GenFun) (g : List Nat) (hgF : ∀ i, lget g i ≠ MSW_FLAG) :
    ∀ dfuel : Nat,
      (∀ game row column gout sout,
        game.grid = some g → visConsistent g game.visible →
        game.visible.length = (game.rows * game.columns).toNat →
        msw_dig gen dfuel game row column = some (gout, sout) →
        ∀ q : Int × Int, msw_in_bounds game.rows game.columns q.1 q.2 →
          q ≠ (row, column) →
          (∀ z : Int × Int,
            DigReach game.rows game.columns g game.visible (row, column) z →
            (q.1 - z.1, q.2 - z.2) ∉ neighborOffsets) →
          lget gout.visible (idxN game.columns q) = lget game.visible (idxN game.columns q)) ∧
      (∀ (W : List (Int × Int)) game row column gout,
        game.grid = some g → visConsistent g game.visible →
        game.visible.length = (game.rows * game.columns).toNat →
        digStep (msw_dig gen dfuel) W game row column = some gout →
        ∀ q : Int × Int, msw_in_bounds game.rows game.columns q.1 q.2 →
          (∀ d ∈ W, q ≠ (row + d.1, column + d.2) ∧
            ∀ z : Int × Int, DigReach game.rows game.columns g game.visible
              (row + d.1, column + d.2) z →
              (q.1 - z.1, q.2 - z.2) ∉ neighborOffsets) →
          lget gout.visible (idxN game.columns q) = lget game.visible (idxN game.columns q)) := by
  intro dfuel
  induction dfuel with
  | zero =>
    constructor
    · intro game row column gout sout _ _ _ hdig
      exact absurd hdig (by rw [show msw_dig gen 0 game row column = none from rfl]; simp)
    · intro W
      cases W with
      | nil =>
        intro game row column gout _ _ _ hstep q _ _
        rw [digStep] at hstep
        obtain rfl : game = gout := Option.some.inj hstep
        rfl
      | cons e rest =>
        intro game row column gout _ _ _ hstep
        rw [digStep] at hstep
        rw [show msw_dig gen 0 game (row + e.1) (column + e.2) = none from rfl] at hstep
        simp at hstep
  | succ f ih =>
    have hdigpart : ∀ game row column gout sout,
        game.grid = some g → visConsistent g game.visible →
        game.visible.length = (game.rows * game.columns).toNat →
        msw_dig gen (f + 1) game row column = some (gout, sout) →
        ∀ q : Int × Int, msw_in_bounds game.rows game.columns q.1 q.2 →
          q ≠ (row, column) →
          (∀ z : Int × Int,
            DigReach game.rows game.columns g game.visible (row, column) z →
            (q.1 - z.1, q.2 - z.2) ∉ neighborOffsets) →
          lget gout.visible (idxN game.columns q) =
            lget game.visible (idxN game.columns q) := by
      intro game row column gout sout hg hc hvlen hdig q hqb hneq hframe
      by_cases hb : msw_in_bounds game.rows game.columns row column
      · have hkq : idxN game.columns (row, column) ≠ idxN game.columns q :=
          fun hcc => hneq (idxN_coord_inj game.rows game.columns q (row, column)
            hqb hb hcc.symm)
        by_cases hgc : lget g (idxN game.columns (row, column)) = MSW_CLEAR
        · by_cases hbv : lget game.visible (idxN game.columns (row, column)) = MSW_CLEAR
          · have h1 : ¬ (lget g (idxN game.columns (row, column)) = MSW_CLEAR ∧
                lget game.visible (idxN game.columns (row, column)) ≠ MSW_CLEAR) :=
              fun hh => hh.2 hbv
            have hm : lget g (idxN game.columns (row, column)) ≠ MSW_MINE := by
              rw [hgc]; exact clear_ne_mine
            have hf : lget game.visible (idxN game.columns (row, column)) ≠ MSW_FLAG := by
              rw [hbv]; decide
            rw [msw_dig_else_branch gen f game g row column hg hb h1 hm hf] at hdig
            obtain rfl : { game with visible := game.visible.set (idxN game.columns (row, column)) (lget g (idxN game.columns (row, column))) } = gout :=
              congrArg Prod.fst (Option.some.inj hdig)
            exact lget_set_ne _ _ _ _ hkq
          · -- flood-fill branch
            rw [msw_dig_clear_branch gen f game g row column hg hb hgc hbv] at hdig
            rcases hstep : digStep (msw_dig gen f) neighborOffsets
                { game with visible := game.visible.set (idxN game.columns (row, column)) MSW_CLEAR }
                row column with _ | game3
            · rw [hstep] at hdig
              exact absurd hdig (by simp)
            · rw [hstep] at hdig
              obtain rfl : game3 = gout :=
                congrArg Prod.fst (Option.some.inj hdig)
              have hc2 : visConsistent g
                  (game.visible.set (idxN game.columns (row, column)) MSW_CLEAR) :=
                visConsistent_set g game.visible _ MSW_CLEAR hc (fun _ _ => hgc.symm)
              have hvlen2 : (game.visible.set (idxN game.columns (row, column))
                  MSW_CLEAR).length = (game.rows * game.columns).toNat := by
                rw [List.length_set]; exact hvlen
              have hq2 : ∀ d ∈ neighborOffsets, q ≠ (row + d.1, column + d.2) ∧
                  ∀ z : Int × Int, DigReach game.rows game.columns g
                    (game.visible.set (idxN game.columns (row, column)) MSW_CLEAR)
                    (row + d.1, column + d.2) z →
                    (q.1 - z.1, q.2 - z.2) ∉ neighborOffsets := by
                intro d hd
                constructor
                · intro hqe
                  apply hframe (row, column)
                    (DigReach.refl (row, column) hb hgc hbv)
                  rw [hqe]
                  have hde : (row + d.1 - row, column + d.2 - column) = d := by
                    obtain ⟨d1, d2⟩ := d
                    simp only [Prod.mk.injEq]
                    constructor <;> ring
                  show (row + d.1 - row, column + d.2 - column) ∈ neighborOffsets
                  rw [hde]
                  exact hd
                · intro z hz
                  apply hframe z
                  refine DigReach_prepend game.rows game.columns g game.visible
                    (row, column) (row + d.1, column + d.2) z hb hgc hbv ?_ hz
                  have hde : (row + d.1 - row, column + d.2 - column) = d := by
                    obtain ⟨d1, d2⟩ := d
                    simp only [Prod.mk.injEq]
                    constructor <;> ring
                  show (row + d.1 - row, column + d.2 - column) ∈ neighborOffsets
                  rw [hde]
                  exact hd
              have hmid := (ih.2) neighborOffsets
                { game with visible := game.visible.set (idxN game.columns (row, column)) MSW_CLEAR }
                row column game3 hg hc2 hvlen2 hstep q hqb hq2
              rw [hmid]
              exact lget_set_ne _ _ _ _ hkq
        · have h1 : ¬ (lget g (idxN game.columns (row, column)) = MSW_CLEAR ∧
              lget game.visible (idxN game.columns (row, column)) ≠ MSW_CLEAR) :=
            fun hh => hgc hh.1
          by_cases hgm : lget g (idxN game.columns (row, column)) = MSW_MINE
          · rw [msw_dig_mine_branch gen f game g row column hg hb hgm] at hdig
            obtain rfl : { game with visible := game.visible.set (idxN game.columns (row, column)) MSW_MINE } = gout :=
              congrArg Prod.fst (Option.some.inj hdig)
            exact lget_set_ne _ _ _ _ hkq
          · by_cases hbf : lget game.visible (idxN game.columns (row, column)) = MSW_FLAG
            · rw [msw_dig_flag_branch gen f game g row column hg hb h1 hgm hbf] at hdig
              obtain rfl : game = gout := congrArg Prod.fst (Option.some.inj hdig)
              rfl
            · rw [msw_dig_else_branch gen f game g row column hg hb h1 hgm hbf] at hdig
              obtain rfl : { game with visible := game.visible.set (idxN game.columns (row, column)) (lget g (idxN game.columns (row, column))) } = gout :=
                congrArg Prod.fst (Option.some.inj hdig)
              exact lget_set_ne _ _ _ _ hkq
      · rw [msw_dig_oob gen f game row column hb] at hdig
        obtain rfl : game = gout := congrArg Prod.fst (Option.some.inj hdig)
        rfl
    refine ⟨hdigpart, ?_⟩
    intro W
    induction W with
    | nil =>
      intro game row column gout _ _ _ hstep q _ _
      rw [digStep] at hstep
      obtain rfl : game = gout := Option.some.inj hstep
      rfl
    | cons e rest ihW =>
      intro game row column gout hg hc hvlen hstep q hqb hq
      rw [digStep] at hstep
      rcases hd1 : msw_dig gen (f + 1) game (row + e.1) (column + e.2) with _ | p
      · rw [hd1] at hstep
        exact absurd hstep (by simp)
      · rw [hd1] at hstep
        obtain ⟨g1, s1⟩ := p
        have hpre := ((msw_dig_pres gen g hgF) (f + 1)).1 game (row + e.1) (column + e.2)
          g1 s1 hg hc hd1
        have hrowe : g1.rows = game.rows := hpre.rows_eq
        have hcole : g1.columns = game.columns := hpre.columns_eq
        have hvlen1 : g1.visible.length = (g1.rows * g1.columns).toNat := by
          rw [hpre.len_eq, hrowe, hcole]; exact hvlen
        have hhead := hq e (List.mem_cons_self e rest)
        have hheadeq := hdigpart game (row + e.1) (column + e.2) g1 s1 hg hc hvlen hd1 q
          hqb hhead.1 hhead.2
        have hmono : ∀ z : Int × Int, msw_in_bounds game.rows game.columns z.1 z.2 →
            lget game.visible (idxN game.columns z) = MSW_CLEAR →
            lget g1.visible (idxN game.columns z) = MSW_CLEAR := by
          intro z hzb hzc
          have hlt : idxN game.columns z < game.visible.length := by
            rw [hvlen]; exact idxN_lt game.rows game.columns z hzb
          exact (hpre.pt _ hlt).1 hzc
        have hq1 : ∀ d ∈ rest, q ≠ (row + d.1, column + d.2) ∧
            ∀ z : Int × Int, DigReach g1.rows g1.columns g g1.visible
              (row + d.1, column + d.2) z →
              (q.1 - z.1, q.2 - z.2) ∉ neighborOffsets := by
          intro d hd
          have hqd := hq d (List.mem_cons_of_mem e hd)
          refine ⟨hqd.1, ?_⟩
          intro z hz
          apply hqd.2 z
          rw [hrowe, hcole] at hz
          exact DigReach_mono game.rows game.columns g game.visible g1.visible hmono _ z hz
        have hres := ihW g1 row column gout hpre.grid_eq hpre.vcons hvlen1 hstep q
          (by rw [hrowe, hcole]; exact hqb) hq1
        rw [hcole] at hres
        rw [hres]
        exact hheadeq

theorem GridReach_last (rows columns : Int) (g : List Nat) (p z : Int × Int)
    (h : GridReach rows columns g p z) :
    msw_in_bounds rows columns z.1 z.2 ∧ lget g (idxN columns z) = MSW_CLEAR := by
  induction h with
  | refl hb hc => exact ⟨hb, hc⟩
  | step _ _ _ hb hc _ _ => exact ⟨hb, hc⟩

theorem DigReach_last (rows columns : Int) (g v : List Nat) (p z : Int × Int)
    (h : DigReach rows columns g v p z) :
    msw_in_bounds rows columns z.1 z.2 ∧ lget g (idxN columns z) = MSW_CLEAR ∧
      lget v (idxN columns z) ≠ MSW_CLEAR := by
  induction h with
  | refl hb hc hv => exact ⟨hb, hc, hv⟩
  | step _ _ _ hb hc hv _ _ => exact ⟨hb, hc, hv⟩

/-- Under the flood-closure invariant, a grid-reachable clear cell is either
already visibly clear or reachable through not-yet-cleared cells only. -/
theorem GridReach_clear_or_DigReach (rows columns : Int) (g v : List Nat)
    (hcons : visConsistent g v) (hflood : floodClosed rows columns g v)
    (hvlen : v.length = (rows * columns).toNat)
    (p q : Int × Int) (h : GridReach rows columns g p q) :
    lget v (idxN columns q) = MSW_CLEAR ∨ DigReach rows columns g v p q := by
  induction h with
  | refl hb hc =>
    by_cases hv : lget v (idxN columns p) = MSW_CLEAR
    · exact Or.inl hv
    · exact Or.inr (DigReach.refl p hb hc hv)
  | step m r h' hb hc hadj ih =>
    rcases ih with hvm | hdr
    · left
      have hm := GridReach_last rows columns g p m h'
      have hre : (m.1 + (r.1 - m.1), m.2 + (r.2 - m.2)) = r := by
        rw [show m.1 + (r.1 - m.1) = r.1 from by ring,
          show m.2 + (r.2 - m.2) = r.2 from by ring]
      have hibr : msw_in_bounds rows columns (m.1 + (r.1 - m.1)) (m.2 + (r.2 - m.2)) := by
        rw [show m.1 + (r.1 - m.1) = r.1 from by ring,
          show m.2 + (r.2 - m.2) = r.2 from by ring]
        exact hb
      have hfl := hflood m hm.1 hvm (r.1 - m.1, r.2 - m.2) hadj hibr
      rw [hre] at hfl
      have hnf : lget v (idxN columns r) ≠ MSW_FLAG := fun hf => (hfl.2 hf) hc
      have hlt : idxN columns r < v.length := by
        rw [hvlen]; exact idxN_lt rows columns r hb
      rw [hcons _ hlt hfl.1 hnf]
      exact hc
    · by_cases hvr : lget v (idxN columns r) = MSW_CLEAR
      · exact Or.inl hvr
      · exact Or.inr (DigReach.step _ _ _ hdr hb hc hvr hadj)

/-- Completeness of the flood fill: every cell dig-reachable from the dug
cell ends visibly clear. -/
theorem dig_reveals_reach (gen : GenFun) (f : Nat) (game : smb_mine) (g : List Nat)
    (gout : smb_mine) (sout : Int) (p : Int × Int)
    (hg : game.grid = some g) (hcons : visConsistent g game.visible)
    (hgF : ∀ i, lget g i ≠ MSW_FLAG)
    (hvlen : game.visible.length = (game.rows * game.columns).toNat)
    (hnm : noMineNearClear game.rows game.columns g)
    (hdig : msw_dig gen (f + 1) game p.1 p.2 = some (gout, sout)) :
    ∀ z : Int × Int, DigReach game.rows game.columns g game.visible p z →
      lget gout.visible (idxN game.columns z) = MSW_CLEAR := by
  intro z hz
  induction hz with
  | refl hb hc hv =>
    exact msw_dig_clears_target gen f game g p.1 p.2 gout sout hg hcons hgF hvlen hb hc hdig
  | step m r h' hb hc hv hadj ih =>
    have hlast := DigReach_last game.rows game.columns g game.visible p m h'
    have hre : (m.1 + (r.1 - m.1), m.2 + (r.2 - m.2)) = r := by
      rw [show m.1 + (r.1 - m.1) = r.1 from by ring,
        show m.2 + (r.2 - m.2) = r.2 from by ring]
    have hibr : msw_in_bounds game.rows game.columns
        (m.1 + (r.1 - m.1)) (m.2 + (r.2 - m.2)) := by
      rw [show m.1 + (r.1 - m.1) = r.1 from by ring,
        show m.2 + (r.2 - m.2) = r.2 from by ring]
      exact hb
    have hproc := (msw_dig_fresh gen g hgF (f + 1)).1 game p.1 p.2 gout sout hg hcons
      hvlen hnm hdig m hlast.1 ih hlast.2.2 (r.1 - m.1, r.2 - m.2) hadj hibr
    rw [hre] at hproc
    exact hproc.1 hc

/-- C4: digging an in-bounds true-Clear cell succeeds with status 1 and
reveals exactly the maximal 8-connected clear region containing the cell:
every reachable clear cell becomes visibly Clear, every bordering count
cell that is not Flagged is revealed to its true count, and every other
cell — including Flagged bordering cells, which keep their flag rather than
being revealed — keeps its previous visible state; fuel `countNonClear`
plus one suffices, so the traversal terminates. -/
theorem C4_floodfill_closure (gen : GenFun) (dfuel : Nat) (game : smb_mine)
    (g : List Nat) (p : Int × Int)
    (hg : game.grid = some g)
    (hgok : gridCellsOK g)
    (hcounts : countsOK game.rows game.columns g)
    (hcons : visConsistent g game.visible)
    (hflood : floodClosed game.rows game.columns g game.visible)
    (hvlen : game.visible.length = (game.rows * game.columns).toNat)
    (hbp : msw_in_bounds game.rows game.columns p.1 p.2)
    (hclear : lget g (idxN game.columns p) = MSW_CLEAR)
    (hfuel : countNonClear game.visible < dfuel) :
    ∃ gout : smb_mine,
      msw_dig gen dfuel game p.1 p.2 = some (gout, 1) ∧
      ∀ q : Int × Int, msw_in_bounds game.rows game.columns q.1 q.2 →
        (GridReach game.rows game.columns g p q →
          lget gout.visible (idxN game.columns q) = MSW_CLEAR) ∧
        (¬ GridReach game.rows game.columns g p q →
          (∃ z, GridReach game.rows game.columns g p z ∧
            (q.1 - z.1, q.2 - z.2) ∈ neighborOffsets) →
          lget game.visible (idxN game.columns q) ≠ MSW_FLAG →
          lget gout.visible (idxN game.columns q) = lget g (idxN game.columns q)) ∧
        (¬ GridReach game.rows game.columns g p q →
          ((¬ ∃ z, GridReach game.rows game.columns g p z ∧
            (q.1 - z.1, q.2 - z.2) ∈ neighborOffsets) ∨
            lget game.visible (idxN game.columns q) = MSW_FLAG) →
          lget gout.visible (idxN game.columns q) =
            lget game.visible (idxN game.columns q)) := by
  have hgF : ∀ i, lget g i ≠ MSW_FLAG := gridCellsOK_no_flag g hgok
  have hnm : noMineNearClear game.rows game.columns g :=
    noMineNearClear_of_countsOK game.rows game.columns g hcounts
  cases dfuel with
  | zero => exact absurd hfuel (by omega)
  | succ f =>
    obtain ⟨out, hdig⟩ := ((msw_dig_suff gen g hgF) (f + 1)).1 game p.1 p.2 hg hcons
      hvlen hfuel
    obtain ⟨gout, sout⟩ := out
    have hnd := ((msw_dig_no_detonation_aux gen g) (f + 1)).1 game p.1 p.2 gout sout hg hnm
      (fun _ => by rw [hclear]; exact clear_ne_mine) hdig
    have hs1 : sout = 1 := hnd.2.2.2.1 hbp
    rw [hs1] at hdig
    have hpres := ((msw_dig_pres gen g hgF) (f + 1)).1 game p.1 p.2 gout 1 hg hcons hdig
    refine ⟨gout, hdig, ?_⟩
    intro q hqb
    have hlt : idxN game.columns q < game.visible.length := by
      rw [hvlen]; exact idxN_lt game.rows game.columns q hqb
    have hframe_case : ¬ GridReach game.rows game.columns g p q →
        (¬ ∃ z, GridReach game.rows game.columns g p z ∧
          (q.1 - z.1, q.2 - z.2) ∈ neighborOffsets) →
        lget gout.visible (idxN game.columns q) =
          lget game.visible (idxN game.columns q) := by
      intro hnr hnex
      have hqnep : q ≠ (p.1, p.2) := by
        intro he
        apply hnr
        rw [he]
        exact GridReach.refl p hbp hclear
      have hfz : ∀ z : Int × Int,
          DigReach game.rows game.columns g game.visible (p.1, p.2) z →
          (q.1 - z.1, q.2 - z.2) ∉ neighborOffsets := by
        intro z hdz hin
        exact hnex ⟨z, DigReach_to_GridReach game.rows game.columns g game.visible
          p z hdz, hin⟩
      exact ((msw_dig_frame gen g hgF) (f + 1)).1 game p.1 p.2 gout 1 hg hcons hvlen
        hdig q hqb hqnep hfz
    refine ⟨?_, ?_, ?_⟩
    · -- reachable cells end visibly clear
      intro hreach
      rcases GridReach_clear_or_DigReach game.rows game.columns g game.visible hcons
          hflood hvlen p q hreach with hvq | hdr
      · exact (hpres.pt _ hlt).1 hvq
      · exact dig_reveals_reach gen f game g gout 1 p hg hcons hgF hvlen hnm hdig q hdr
    · -- non-flagged bordering cells get their true count revealed
      intro hnr hex hnf
      obtain ⟨z, hzr, hadj⟩ := hex
      have hzlast := GridReach_last game.rows game.columns g p z hzr
      have hgq_ne_clear : lget g (idxN game.columns q) ≠ MSW_CLEAR := by
        intro hcq
        exact hnr (GridReach.step p z q hzr hqb hcq hadj)
      have hre : (z.1 + (q.1 - z.1), z.2 + (q.2 - z.2)) = q := by
        rw [show z.1 + (q.1 - z.1) = q.1 from by ring,
          show z.2 + (q.2 - z.2) = q.2 from by ring]
      have hibq : msw_in_bounds game.rows game.columns
          (z.1 + (q.1 - z.1)) (z.2 + (q.2 - z.2)) := by
        rw [show z.1 + (q.1 - z.1) = q.1 from by ring,
          show z.2 + (q.2 - z.2) = q.2 from by ring]
        exact hqb
      have hgq_ne_mine : lget g (idxN game.columns q) ≠ MSW_MINE := by
        have h3 := hnm z hzlast.1 hzlast.2 (q.1 - z.1, q.2 - z.2) hadj hibq
        rw [hre] at h3
        exact h3
      by_cases hvz : lget game.visible (idxN game.columns z) = MSW_CLEAR
      · -- the border was already revealed by a past flood; it is stable
        have hfl := hflood z hzlast.1 hvz (q.1 - z.1, q.2 - z.2) hadj hibq
        rw [hre] at hfl
        have hvq : lget game.visible (idxN game.columns q) =
            lget g (idxN game.columns q) := hcons _ hlt hfl.1 hnf
        exact (hpres.pt _ hlt).2.1 hgq_ne_clear hvq
      · -- the border cell of a freshly cleared cell is processed
        have hdr : DigReach game.rows game.columns g game.visible p z := by
          rcases GridReach_clear_or_DigReach game.rows game.columns g game.visible hcons
              hflood hvlen p z hzr with h3 | h3
          · exact absurd h3 hvz
          · exact h3
        have hgz : lget gout.visible (idxN game.columns z) = MSW_CLEAR :=
          dig_reveals_reach gen f game g gout 1 p hg hcons hgF hvlen hnm hdig z hdr
        have hproc := (msw_dig_fresh gen g hgF (f + 1)).1 game p.1 p.2 gout 1 hg hcons
          hvlen hnm hdig z hzlast.1 hgz hvz (q.1 - z.1, q.2 - z.2) hadj hibq
        rw [hre] at hproc
        rcases hproc.2 hgq_ne_clear with hval | hflag
        · exact hval
        · exact absurd ((hpres.pt _ hlt).2.2.2 hflag) hnf
    · -- everything else keeps its previous visible value
      intro hnr hout
      rcases hout with hnex | hvf
      · exact hframe_case hnr hnex
      · by_cases hex : ∃ z, GridReach game.rows game.columns g p z ∧
            (q.1 - z.1, q.2 - z.2) ∈ neighborOffsets
        · obtain ⟨z, hzr, hadj⟩ := hex
          have hzlast := GridReach_last game.rows game.columns g p z hzr
          have hgq_ne_clear : lget g (idxN game.columns q) ≠ MSW_CLEAR := by
            intro hcq
            exact hnr (GridReach.step p z q hzr hqb hcq hadj)
          have hre : (z.1 + (q.1 - z.1), z.2 + (q.2 - z.2)) = q := by
            rw [show z.1 + (q.1 - z.1) = q.1 from by ring,
              show z.2 + (q.2 - z.2) = q.2 from by ring]
          have hibq : msw_in_bounds game.rows game.columns
              (z.1 + (q.1 - z.1)) (z.2 + (q.2 - z.2)) := by
            rw [show z.1 + (q.1 - z.1) = q.1 from by ring,
              show z.2 + (q.2 - z.2) = q.2 from by ring]
            exact hqb
          have hgq_ne_mine : lget g (idxN game.columns q) ≠ MSW_MINE := by
            have h3 := hnm z hzlast.1 hzlast.2 (q.1 - z.1, q.2 - z.2) hadj hibq
            rw [hre] at h3
            exact h3
          rw [hvf]
          exact (hpres.pt _ hlt).2.2.1 hgq_ne_clear hgq_ne_mine hvf
        · exact hframe_case hnr hex

/-- Counterexample to C4 as stated: on the 1x3 board with true grid
`[Clear, 1, Mine]` and visible `[Unknown, Flagged, Unknown]`, digging the
Clear cell (0,0) succeeds but the bordering positive-count cell (0,1) is
not revealed: it keeps its flag instead of showing its count. -/
theorem C4_counterexample :
    msw_dig (fun _ _ => none) 5
      { rows := 1, columns := 3, mines := 1, grid := some [48, 49, 42], visible := [35, 70, 35] } 0 0 =
      some ({ rows := 1, columns := 3, mines := 1, grid := some [48, 49, 42], visible := [48, 70, 35] }, 1) ∧
    lget [48, 49, 42] (idxN 3 (0, 0)) = MSW_CLEAR ∧
    ((0 : Int) - 0, (1 : Int) - 0) ∈ neighborOffsets ∧
    lget [48, 49, 42] (idxN 3 (0, 1)) = MSW_CLEAR + 1 ∧
    lget [48, 70, 35] (idxN 3 (0, 1)) = MSW_FLAG :=
  ⟨by decide, by decide, by decide, by decide, by decide⟩

theorem C4_floodfill_closure_witness :
    countNonClear [35, 35, 35, 35] < 5 ∧
    ∃ gout : smb_mine,
      msw_dig (fun _ _ => none) 5
        { rows := 2, columns := 2, mines := 0, grid := some [48, 48, 48, 48], visible := [35, 35, 35, 35] } 0 0 =
        some (gout, 1) ∧
      ∀ q : Int × Int, msw_in_bounds 2 2 q.1 q.2 →
        (GridReach 2 2 [48, 48, 48, 48] (0, 0) q →
          lget gout.visible (idxN 2 q) = MSW_CLEAR) ∧
        (¬ GridReach 2 2 [48, 48, 48, 48] (0, 0) q →
          (∃ z, GridReach 2 2 [48, 48, 48, 48] (0, 0) z ∧
            (q.1 - z.1, q.2 - z.2) ∈ neighborOffsets) →
          lget [35, 35, 35, 35] (idxN 2 q) ≠ MSW_FLAG →
          lget gout.visible (idxN 2 q) = lget [48, 48, 48, 48] (idxN 2 q)) ∧
        (¬ GridReach 2 2 [48, 48, 48, 48] (0, 0) q →
          ((¬ ∃ z, GridReach 2 2 [48, 48, 48, 48] (0, 0) z ∧
            (q.1 - z.1, q.2 - z.2) ∈ neighborOffsets) ∨
            lget [35, 35, 35, 35] (idxN 2 q) = MSW_FLAG) →
          lget gout.visible (idxN 2 q) = lget [35, 35, 35, 35] (idxN 2 q)) :=
  ⟨by decide,
   C4_floodfill_closure (fun _ _ => none) 5
     { rows := 2, columns := 2, mines := 0, grid := some [48, 48, 48, 48], visible := [35, 35, 35, 35] }
     [48, 48, 48, 48] (0, 0) rfl (by decide)
     (countsOK_of_all_clear 2 2 [48, 48, 48, 48] (by decide) (by decide))
     (by decide)
     (floodClosed_of_no_visible_clear 2 2 [48, 48, 48, 48] [35, 35, 35, 35] (by decide))
     (by decide) (by decide) (by decide) (by decide)⟩
